import Mathlib

/-!
Shallow embedding of the `stack` concatenative-language interpreter
(src/ast.rs, src/value.rs, src/parser.rs, src/interpreter.rs) and proofs
checking the specification's claims against it.

Modelling conventions:
* Rust `f64`/`f32` numbers are idealised as exact rationals (`Rat`).
  IEEE rounding, `NaN`, infinities and negative zero are outside the model;
  every theorem below restricts its numeric inputs to values (small integers
  and simple fractions) on which the rational idealisation agrees with IEEE
  double/single arithmetic and formatting.
* The value stack is a `List Value` with the top of the stack at the head
  (Rust keeps a `Vec` with the top at the end).
* The pending-statement `VecDeque` is a `List Statement` with the front at
  the head.
* `HashMap<String, Procedure>` is an association list: insertion conses and
  lookup takes the first (= most recent) binding, which observably matches
  insert-with-overwrite.
* Parsers work on `List Char`; nom's `Err::Error` / `Err::Failure`
  distinction (which `cut` manipulates and `alt` inspects) is modelled by
  the `PRes.err` / `PRes.fail` constructors.  Error *contents* (the
  `VerboseError` traces) are not modelled.
-/

namespace Stack

/-! ## Rational-number helpers (idealising `f64` arithmetic, src/value.rs) -/

/-- Integer as a rational. -/
def ratI (n : Int) : Rat := Rat.mk' n 1 one_ne_zero (Nat.coprime_one_right _)

/-- `a + b` on numbers (f64 `+` idealised as exact rational addition). -/
def ratAdd (a b : Rat) : Rat :=
  Rat.divInt (a.num * (b.den : Int) + b.num * (a.den : Int)) ((a.den : Int) * (b.den : Int))

/-- `a - b` on numbers. -/
def ratSub (a b : Rat) : Rat :=
  Rat.divInt (a.num * (b.den : Int) - b.num * (a.den : Int)) ((a.den : Int) * (b.den : Int))

/-- `a * b` on numbers. -/
def ratMul (a b : Rat) : Rat :=
  Rat.divInt (a.num * b.num) ((a.den : Int) * (b.den : Int))

/-- `a / b` on numbers.  (f64 division by zero yields an infinity, which the
rational model cannot represent; `Rat.divInt _ 0 = 0` there.  No theorem
below divides by zero.) -/
def ratDiv (a b : Rat) : Rat :=
  Rat.divInt (a.num * (b.den : Int)) ((a.den : Int) * b.num)

/-- Total order on the rationals (f64 comparison on non-NaN values). -/
def ratCmp (a b : Rat) : Ordering :=
  let x := a.num * (b.den : Int)
  let y := b.num * (a.den : Int)
  if x < y then .lt else if x = y then .eq else .gt

/-- Rust `f64::trunc` (rounds toward zero) on the rational model. -/
def ratTrunc (q : Rat) : Int := Int.tdiv q.num (q.den : Int)

/-- Rust `f64::fract` = `self - self.trunc()`. -/
def ratFract (q : Rat) : Rat := ratSub q (ratI (ratTrunc q))

/-- Rust `n as usize` for a float `n`: truncate toward zero and saturate to
`[0, usize::MAX]` (64-bit `usize`).  (`NaN`, which also casts to 0, is not
representable in the model.) -/
def f64ToUsize (q : Rat) : Nat :=
  let t := ratTrunc q
  if t < 0 then 0 else min t.toNat (2 ^ 64 - 1)

/-! ## Abstract syntax (src/ast.rs) -/

/-- Builtin operations (src/ast.rs `enum Builtin`).

The variants `dup2`, `drop2`, `drop3`, `rotl` and `rotr` are referenced by
the parser and by the parser's tests (src/parser.rs, `Builtin::Dup2` etc.)
but are missing from the enum as it stands in src/ast.rs; they are included
here, modelled from the spec (§4.2: `2dup`, `2drop`, `3drop`, `rotl`,
`rotr`). -/
inductive Builtin where
  | add | sub | mul | div | eq | neg | lt | le | gt | ge
  | dup | swap | drop | over | dupd | keep | eval | println | ifOp | nth
  | dup2 | drop2 | drop3 | rotl | rotr
deriving DecidableEq, Repr

/-- src/ast.rs `Builtin::to_str`.  The tokens for the five spec-modelled
variants are the ones the parser (src/parser.rs) recognises for them. -/
def builtinToStr : Builtin → String
  | .add => "+"
  | .sub => "-"
  | .mul => "*"
  | .div => "/"
  | .eq => "="
  | .neg => "!"
  | .lt => "<"
  | .le => "<="
  | .gt => ">"
  | .ge => ">="
  | .dup => "dup"
  | .swap => "swap"
  | .drop => "drop"
  | .over => "over"
  | .dupd => "dupd"
  | .keep => "keep"
  | .eval => "eval"
  | .println => "println"
  | .ifOp => "?"
  | .nth => "nth"
  | .dup2 => "2dup"
  | .drop2 => "2drop"
  | .drop3 => "3drop"
  | .rotl => "rotl"
  | .rotr => "rotr"

/-- src/ast.rs `enum Literal`.  `Number` holds an `f32` in the source,
idealised here as a rational. -/
inductive Literal where
  | bool : Bool → Literal
  | number : Rat → Literal
  | string : String → Literal
deriving DecidableEq, Repr

mutual
/-- src/value.rs `enum Value`.  `Number` holds an `f64`, idealised as a
rational. -/
inductive Value where
  | bool : Bool → Value
  | number : Rat → Value
  | string : String → Value
  | procedure : Procedure → Value
  | list : List Value → Value
deriving Repr

/-- src/ast.rs `struct Procedure`. -/
inductive Procedure where
  | mk : List Statement → Procedure
deriving Repr

/-- src/ast.rs `enum Statement`. -/
inductive Statement where
  | expression : Expression → Statement
  | builtin : Builtin → Statement
  | value : Value → Statement
  | definition : String → Procedure → Statement
  | word : String → Statement
deriving Repr

/-- src/ast.rs `enum Expression`. -/
inductive Expression where
  | literal : Literal → Expression
  | procedure : Procedure → Expression
  | list : List Expression → Expression
deriving Repr
end

/-- src/ast.rs `struct Program`. -/
structure Program where
  statements : List Statement
deriving Repr

/-! ## Display formatting (the `impl Display` blocks of src/value.rs and
src/ast.rs), modelled as the produced character sequences. -/

/-- Decimal digits of a natural number, most significant first (fuel bounds
the digit count; `n` has fewer than `n + 1` digits). -/
def natDigitsAux : Nat → Nat → List Char
  | 0, _ => []
  | fuel + 1, n =>
      if n < 10 then [Nat.digitChar n]
      else natDigitsAux fuel (n / 10) ++ [Nat.digitChar (n % 10)]

/-- Decimal digits of a natural number, most significant first. -/
def natDigits (n : Nat) : List Char := natDigitsAux (n + 1) n

/-- Decimal expansion of the fractional remainder `r / d` by long division
(`0 ≤ r < d`).  A genuine `f64` value always terminates within 1075 digits,
so the fuel is never exhausted on representable inputs. -/
def fracDigits : Nat → Nat → Nat → List Char
  | 0, _, _ => []
  | _ + 1, 0, _ => []
  | fuel + 1, r, d => Nat.digitChar (r * 10 / d) :: fracDigits fuel (r * 10 % d) d

/-- Rust's `Display` for `f64` (`write!(f, "{a}")`): sign, integer part,
and (only when nonzero) the fractional part after a dot.  Rust prints the
shortest decimal that round-trips the double; on integral values — the only
numbers the theorems below format — that is exactly the plain decimal
expansion produced here. -/
def displayNumber (q : Rat) : List Char :=
  (if q.num < 0 then ['-'] else []) ++
  natDigits (q.num.natAbs / q.den) ++
  (if q.num.natAbs % q.den = 0 then []
   else '.' :: fracDigits 1200 (q.num.natAbs % q.den) q.den)

/-- One character of Rust's `str` `Debug` escaping (`{s:?}`).  Printable
characters outside ASCII are kept verbatim (Rust consults Unicode
printability tables for those; every theorem below uses ASCII only). -/
def escDebugChar (c : Char) : List Char :=
  if c = '"' then ['\\', '"']
  else if c = '\\' then ['\\', '\\']
  else if c = '\n' then ['\\', 'n']
  else if c = '\t' then ['\\', 't']
  else if c = '\r' then ['\\', 'r']
  else if c.toNat < 0x20 ∨ c.toNat = 0x7f then
    '\\' :: 'u' :: '\x7b' :: Nat.toDigits 16 c.toNat ++ ['\x7d']
  else [c]

/-- Rust `{s:?}` for a string: quoted, with `Debug` escapes. -/
def debugStr (s : String) : List Char :=
  '"' :: s.data.flatMap escDebugChar ++ ['"']

/-- src/ast.rs `impl Display for Literal`. -/
def displayLiteral : Literal → List Char
  | .bool b => if b then "true".data else "false".data
  | .number q => displayNumber q
  | .string s => debugStr s

mutual
/-- src/value.rs `impl Display for Value`. -/
def displayValue : Value → List Char
  | .bool b => if b then "true".data else "false".data
  | .number q => displayNumber q
  | .string s => debugStr s
  | .procedure p => displayProcedure p
  | .list vs =>
      '[' :: displayValueItems vs ++ (if vs.isEmpty then [] else [' ']) ++ [']']

/-- The `for x in s.iter() { write!(f, " {x}")?; }` loop of the `List`
display. -/
def displayValueItems : List Value → List Char
  | [] => []
  | v :: vs => ' ' :: displayValue v ++ displayValueItems vs

/-- src/ast.rs `impl Display for Procedure`. -/
def displayProcedure : Procedure → List Char
  | .mk ss =>
      '\x7b' :: displayStatementItems ss ++ (if ss.isEmpty then [] else [' ']) ++ ['\x7d']

/-- The statement loop of the `Procedure` display. -/
def displayStatementItems : List Statement → List Char
  | [] => []
  | s :: ss => ' ' :: displayStatement s ++ displayStatementItems ss

/-- src/ast.rs `impl Display for Statement`. -/
def displayStatement : Statement → List Char
  | .expression e => displayExpression e
  | .builtin b => (builtinToStr b).data
  | .value v => displayValue v
  | .definition id p => "def ".data ++ id.data ++ [' '] ++ displayProcedure p
  | .word w => w.data

/-- src/ast.rs `impl Display for Expression`. -/
def displayExpression : Expression → List Char
  | .literal l => displayLiteral l
  | .procedure p => displayProcedure p
  | .list es =>
      '[' :: displayExpressionItems es ++ (if es.isEmpty then [] else [' ']) ++ [']']

/-- The item loop of the expression-list display. -/
def displayExpressionItems : List Expression → List Char
  | [] => []
  | e :: es => ' ' :: displayExpression e ++ displayExpressionItems es
end

/-- A `Value` rendered as a Lean `String` (for error messages, which the
Rust code builds with `format!`). -/
def vstr (v : Value) : String := String.mk (displayValue v)

/-! ## Structural equality and ordering on values
(`derive(PartialEq, PartialOrd)` in src/value.rs and src/ast.rs). -/

/-- Derived `PartialEq` for `Literal`. -/
def beqLiteral : Literal → Literal → Bool
  | .bool a, .bool b => a == b
  | .number a, .number b => a == b
  | .string a, .string b => a == b
  | _, _ => false

mutual
/-- Derived `PartialEq` for `Value` (structural; f64 `NaN ≠ NaN` is outside
the rational model). -/
def beqValue : Value → Value → Bool
  | .bool a, .bool b => a == b
  | .number a, .number b => a == b
  | .string a, .string b => a == b
  | .procedure a, .procedure b => beqProcedure a b
  | .list a, .list b => beqValueList a b
  | _, _ => false

def beqValueList : List Value → List Value → Bool
  | [], [] => true
  | a :: as', b :: bs' => beqValue a b && beqValueList as' bs'
  | _, _ => false

def beqProcedure : Procedure → Procedure → Bool
  | .mk a, .mk b => beqStatementList a b

def beqStatementList : List Statement → List Statement → Bool
  | [], [] => true
  | a :: as', b :: bs' => beqStatement a b && beqStatementList as' bs'
  | _, _ => false

def beqStatement : Statement → Statement → Bool
  | .expression a, .expression b => beqExpression a b
  | .builtin a, .builtin b => a == b
  | .value a, .value b => beqValue a b
  | .definition i a, .definition j b => i == j && beqProcedure a b
  | .word a, .word b => a == b
  | _, _ => false

def beqExpression : Expression → Expression → Bool
  | .literal a, .literal b => beqLiteral a b
  | .procedure a, .procedure b => beqProcedure a b
  | .list a, .list b => beqExpressionList a b
  | _, _ => false

def beqExpressionList : List Expression → List Expression → Bool
  | [], [] => true
  | a :: as', b :: bs' => beqExpression a b && beqExpressionList as' bs'
  | _, _ => false
end

/-- Lexicographic comparison of two character lists (Rust `String`'s total
order is byte-lexicographic; on ASCII — all the theorems use ASCII — the
char order used here coincides). -/
def charListCmp : List Char → List Char → Ordering
  | [], [] => .eq
  | [], _ :: _ => .lt
  | _ :: _, [] => .gt
  | a :: as', b :: bs' =>
      if a.toNat < b.toNat then .lt
      else if a.toNat = b.toNat then charListCmp as' bs'
      else .gt

/-- Variant rank used by the derived `PartialOrd` discriminant comparison
(declaration order in src/ast.rs; the five spec-modelled variants follow). -/
def builtinRank : Builtin → Nat
  | .add => 0 | .sub => 1 | .mul => 2 | .div => 3 | .eq => 4
  | .neg => 5 | .lt => 6 | .le => 7 | .gt => 8 | .ge => 9
  | .dup => 10 | .swap => 11 | .drop => 12 | .over => 13 | .dupd => 14
  | .keep => 15 | .eval => 16 | .println => 17 | .ifOp => 18 | .nth => 19
  | .dup2 => 20 | .drop2 => 21 | .drop3 => 22 | .rotl => 23 | .rotr => 24

/-- Derived `PartialOrd` for `Literal` (variant order `Bool < Number <
String`, then field comparison). -/
def cmpLiteral : Literal → Literal → Option Ordering
  | .bool a, .bool b => some (compare a b)
  | .number a, .number b => some (ratCmp a b)
  | .string a, .string b => some (charListCmp a.data b.data)
  | a, b =>
      let rank : Literal → Nat
        | .bool _ => 0 | .number _ => 1 | .string _ => 2
      some (compare (rank a) (rank b))

mutual
/-- Derived `PartialOrd` for `Value`: different variants compare by
declaration order, same variants compare their fields (slices
lexicographically).  f64 `NaN` (whose comparisons yield `None`) is outside
the rational model. -/
def cmpValue : Value → Value → Option Ordering
  | .bool a, .bool b => some (compare a b)
  | .number a, .number b => some (ratCmp a b)
  | .string a, .string b => some (charListCmp a.data b.data)
  | .procedure a, .procedure b => cmpProcedure a b
  | .list a, .list b => cmpValueList a b
  | a, b =>
      let rank : Value → Nat
        | .bool _ => 0 | .number _ => 1 | .string _ => 2
        | .procedure _ => 3 | .list _ => 4
      some (compare (rank a) (rank b))

/-- Rust slice `PartialOrd`: elementwise until a non-equal result (a `None`
propagates), then compare lengths. -/
def cmpValueList : List Value → List Value → Option Ordering
  | [], [] => some .eq
  | [], _ :: _ => some .lt
  | _ :: _, [] => some .gt
  | a :: as', b :: bs' =>
      match cmpValue a b with
      | some .eq => cmpValueList as' bs'
      | r => r

def cmpProcedure : Procedure → Procedure → Option Ordering
  | .mk a, .mk b => cmpStatementList a b

def cmpStatementList : List Statement → List Statement → Option Ordering
  | [], [] => some .eq
  | [], _ :: _ => some .lt
  | _ :: _, [] => some .gt
  | a :: as', b :: bs' =>
      match cmpStatement a b with
      | some .eq => cmpStatementList as' bs'
      | r => r

/-- Derived `PartialOrd` for `Statement` (variant order `Expression <
Builtin < Value < Definition < Word`). -/
def cmpStatement : Statement → Statement → Option Ordering
  | .expression a, .expression b => cmpExpression a b
  | .builtin a, .builtin b => some (compare (builtinRank a) (builtinRank b))
  | .value a, .value b => cmpValue a b
  | .definition i a, .definition j b =>
      match charListCmp i.data j.data with
      | .eq => cmpProcedure a b
      | r => some r
  | .word a, .word b => some (charListCmp a.data b.data)
  | a, b =>
      let rank : Statement → Nat
        | .expression _ => 0 | .builtin _ => 1 | .value _ => 2
        | .definition _ _ => 3 | .word _ => 4
      some (compare (rank a) (rank b))

/-- Derived `PartialOrd` for `Expression` (variant order `Literal <
Procedure < List`). -/
def cmpExpression : Expression → Expression → Option Ordering
  | .literal a, .literal b => cmpLiteral a b
  | .procedure a, .procedure b => cmpProcedure a b
  | .list a, .list b => cmpExpressionList a b
  | a, b =>
      let rank : Expression → Nat
        | .literal _ => 0 | .procedure _ => 1 | .list _ => 2
      some (compare (rank a) (rank b))

def cmpExpressionList : List Expression → List Expression → Option Ordering
  | [], [] => some .eq
  | [], _ :: _ => some .lt
  | _ :: _, [] => some .gt
  | a :: as', b :: bs' =>
      match cmpExpression a b with
      | some .eq => cmpExpressionList as' bs'
      | r => r
end

/-- `a < b` (`PartialOrd::lt`: `matches!(partial_cmp, Some(Less))`). -/
def valueLtb (a b : Value) : Bool := cmpValue a b == some .lt

/-- `a <= b`. -/
def valueLeb (a b : Value) : Bool :=
  cmpValue a b == some .lt || cmpValue a b == some .eq

/-- `a > b`. -/
def valueGtb (a b : Value) : Bool := cmpValue a b == some .gt

/-- `a >= b`. -/
def valueGeb (a b : Value) : Bool :=
  cmpValue a b == some .gt || cmpValue a b == some .eq

/-! ## Arithmetic on values (the operator impls of src/value.rs). -/

/-- src/value.rs `impl Add for Value`. -/
def valueAdd (a b : Value) : Except String Value :=
  match a, b with
  | .number x, .number y => .ok (.number (ratAdd x y))
  | a, b => .error ("Can\x27t add " ++ vstr a ++ " and " ++ vstr b)

/-- src/value.rs `impl Sub for Value`. -/
def valueSub (a b : Value) : Except String Value :=
  match a, b with
  | .number x, .number y => .ok (.number (ratSub x y))
  | a, b => .error ("Can\x27t subtract " ++ vstr b ++ " from " ++ vstr a)

/-- src/value.rs `impl Mul for Value`. -/
def valueMul (a b : Value) : Except String Value :=
  match a, b with
  | .number x, .number y => .ok (.number (ratMul x y))
  | a, b => .error ("Can\x27t multiply " ++ vstr a ++ " and " ++ vstr b)

/-- src/value.rs `impl Div for Value`. -/
def valueDiv (a b : Value) : Except String Value :=
  match a, b with
  | .number x, .number y => .ok (.number (ratDiv x y))
  | a, b => .error ("Can\x27t divide " ++ vstr a ++ " by " ++ vstr b)

/-- src/value.rs `impl Not for Value`. -/
def valueNot (a : Value) : Except String Value :=
  match a with
  | .bool b => .ok (.bool (!b))
  | v => .error ("Can\x27t negate " ++ vstr v)

/-- src/value.rs `impl From<Literal> for Value` (`Number(a as f64)`; the
f32→f64 widening is exact and disappears in the rational model). -/
def valueOfLiteral : Literal → Value
  | .bool b => .bool b
  | .number a => .number a
  | .string s => .string s

mutual
/-- src/value.rs `impl From<Expression> for Value`. -/
def valueOfExpression : Expression → Value
  | .literal l => valueOfLiteral l
  | .procedure p => .procedure p
  | .list l => .list (valueOfExpressionList l)

def valueOfExpressionList : List Expression → List Value
  | [] => []
  | e :: es => valueOfExpression e :: valueOfExpressionList es
end

/-! ## Parser combinators (the nom pieces src/parser.rs uses).

A parse result is `ok remaining value`, a recoverable `err` (nom
`Err::Error`, lets `alt` try the next branch) or an unrecoverable `fail`
(nom `Err::Failure`, produced by `cut`, aborts `alt`). -/

inductive PRes (α : Type) where
  | ok : List Char → α → PRes α
  | err : PRes α
  | fail : PRes α
deriving Repr

/-- A parser over characters. -/
def Parser (α : Type) : Type := List Char → PRes α

/-- Functorial map over a parser. -/
def pmap (f : α → β) (p : Parser α) : Parser β := fun i =>
  match p i with
  | .ok r a => .ok r (f a)
  | .err => .err
  | .fail => .fail

/-- nom `value(v, p)`. -/
def pvalue (v : β) (p : Parser α) : Parser β := pmap (fun _ => v) p

/-- Sequencing (the tuple/pair building block): run `p`, then `q` on the
rest.  An `Error` from either side stays recoverable. -/
def pseq (p : Parser α) (q : Parser β) : Parser (α × β) := fun i =>
  match p i with
  | .ok r a =>
      (match q r with
       | .ok r' b => .ok r' (a, b)
       | .err => .err
       | .fail => .fail)
  | .err => .err
  | .fail => .fail

/-- nom `preceded`. -/
def preceded (p : Parser α) (q : Parser β) : Parser β := pmap Prod.snd (pseq p q)

/-- nom `terminated`. -/
def terminated (p : Parser α) (q : Parser β) : Parser α := pmap Prod.fst (pseq p q)

/-- nom `delimited`. -/
def delimited (p : Parser α) (q : Parser β) (r : Parser γ) : Parser β :=
  terminated (preceded p q) r

/-- nom `alt` on two branches: try `p`; on a recoverable error try `q`. -/
def palt (p q : Parser α) : Parser α := fun i =>
  match p i with
  | .err => q i
  | r => r

/-- nom `opt`. -/
def popt (p : Parser α) : Parser (Option α) := fun i =>
  match p i with
  | .ok r a => .ok r (some a)
  | .err => .ok i none
  | .fail => .fail

/-- nom `cut`: commit, converting a recoverable error into a failure. -/
def pcut (p : Parser α) : Parser α := fun i =>
  match p i with
  | .err => .fail
  | r => r

/-- nom `recognize`: return the consumed input slice. -/
def precognize (p : Parser α) : Parser (List Char) := fun i =>
  match p i with
  | .ok r _ => .ok r (i.take (i.length - r.length))
  | .err => .err
  | .fail => .fail

/-- nom `all_consuming`. -/
def allConsuming (p : Parser α) : Parser α := fun i =>
  match p i with
  | .ok [] a => .ok [] a
  | .ok (_ :: _) _ => .err
  | .err => .err
  | .fail => .fail

/-- Bool-valued prefix test (`List.isPrefixOf`, restated so that it
reduces when the first list is exhausted). -/
def listPrefix : List Char → List Char → Bool
  | [], _ => true
  | _ :: _, [] => false
  | c :: t, d :: i => c == d && listPrefix t i

/-- nom `tag`. -/
def ptag (t : List Char) : Parser (List Char) := fun i =>
  if listPrefix t i then .ok (i.drop t.length) t else .err

/-- nom `tag_no_case` (ASCII case folding). -/
def ptagNoCase (t : List Char) : Parser (List Char) := fun i =>
  let rec go : List Char → List Char → Option (List Char)
    | [], rest => some rest
    | _ :: _, [] => none
    | c :: cs, d :: ds => if c.toLower = d.toLower then go cs ds else none
  match go t i with
  | some rest => .ok rest t
  | none => .err

/-- nom `char`. -/
def pchar (c : Char) : Parser Char := fun i =>
  match i with
  | d :: rest => if d = c then .ok rest c else .err
  | [] => .err

/-- One-or-more characters satisfying `f` (the shape of nom's `alpha1`,
`digit1`, `multispace1`, `space1`). -/
def takeWhile1 (f : Char → Bool) : Parser (List Char) := fun i =>
  let taken := i.takeWhile f
  if taken.isEmpty then .err else .ok (i.dropWhile f) taken

/-- Zero-or-more characters satisfying `f` (nom `alphanumeric0`,
`multispace0`, `space0`). -/
def takeWhile0 (f : Char → Bool) : Parser (List Char) := fun i =>
  .ok (i.dropWhile f) (i.takeWhile f)

/-- nom `is_not(set)`: the longest nonempty run of characters not in
`set`. -/
def pisNot (set : List Char) : Parser (List Char) :=
  takeWhile1 (fun c => !set.contains c)

def isMultispace (c : Char) : Bool := c = ' ' ∨ c = '\t' ∨ c = '\r' ∨ c = '\n'

def isSpaceTab (c : Char) : Bool := c = ' ' ∨ c = '\t'

def alpha1 : Parser (List Char) := takeWhile1 Char.isAlpha
def alphanumeric0 : Parser (List Char) := takeWhile0 Char.isAlphanum
def digit1 : Parser (List Char) := takeWhile1 Char.isDigit
def multispace0 : Parser (List Char) := takeWhile0 isMultispace
def multispace1 : Parser (List Char) := takeWhile1 isMultispace
def space0 : Parser (List Char) := takeWhile0 isSpaceTab
def space1 : Parser (List Char) := takeWhile1 isSpaceTab

/-- The loop of nom `separated_list0`/`separated_list1`: parse
`(sep item)*` after an initial item.  Stops (backtracking the separator)
when the separator or the item errs; errors out if the separator succeeds
without consuming (nom's infinite-loop guard — unreachable here since every
separator used consumes); propagates failures.  Each iteration consumes at
least one character, so fuel `i.length + 1` never runs out. -/
def sepGo (sep : Parser α) (item : Parser β) : Nat → Parser (List β)
  | 0 => fun _ => .err
  | fuel + 1 => fun i =>
    match sep i with
    | .fail => .fail
    | .err => .ok i []
    | .ok i1 _ =>
      if i1.length = i.length then .err
      else
        match item i1 with
        | .fail => .fail
        | .err => .ok i []
        | .ok i2 b =>
          match sepGo sep item fuel i2 with
          | .ok r bs => .ok r (b :: bs)
          | .err => .err
          | .fail => .fail

/-- nom `separated_list0`. -/
def sepList0 (sep : Parser α) (item : Parser β) : Parser (List β) := fun i =>
  match item i with
  | .err => .ok i []
  | .fail => .fail
  | .ok i1 b =>
    match sepGo sep item (i1.length + 1) i1 with
    | .ok r bs => .ok r (b :: bs)
    | .err => .err
    | .fail => .fail

/-- nom `separated_list1`. -/
def sepList1 (sep : Parser α) (item : Parser β) : Parser (List β) := fun i =>
  match item i with
  | .err => .err
  | .fail => .fail
  | .ok i1 b =>
    match sepGo sep item (i1.length + 1) i1 with
    | .ok r bs => .ok r (b :: bs)
    | .err => .err
    | .fail => .fail

/-! ## The number literal parser (nom `number::complete::float`). -/

/-- nom `recognize_float`: `[+-]? (digit+ ('.' digit*)? | '.' digit+)
([eE] [+-]? digit+)?` — with a `cut` on the exponent digits. -/
def recognizeFloat : Parser (List Char) :=
  precognize
    (pseq (popt (palt (pchar '+') (pchar '-')))
      (pseq
        (palt
          (pvalue () (pseq digit1 (popt (pseq (pchar '.') (popt digit1)))))
          (pvalue () (pseq (pchar '.') digit1)))
        (popt
          (pseq (palt (pchar 'e') (pchar 'E'))
            (pseq (popt (palt (pchar '+') (pchar '-'))) (pcut digit1))))))

/-- nom `recognize_float_or_exceptions`: also accepts `nan`, `infinity`,
`inf` case-insensitively. -/
def recognizeFloatOrExceptions : Parser (List Char) :=
  palt recognizeFloat
    (palt (ptagNoCase "nan".data)
      (palt (ptagNoCase "infinity".data) (ptagNoCase "inf".data)))

/-- Numeric value of a digit run. -/
def natOfDigits (ds : List Char) : Nat :=
  ds.foldl (fun a c => a * 10 + (c.toNat - '0'.toNat)) 0

/-- Conversion of a recognised float token to a number (Rust
`str::parse::<f32>`, idealised as exact rational conversion; the IEEE
single-precision rounding this skips is why the round-trip theorems below
restrict numbers to small integers).  `nan`/`inf`/`infinity` have no
rational counterpart and yield `none`. -/
def charsToRat (cs : List Char) : Option Rat :=
  let sgn : Int := if cs.head? = some '-' then -1 else 1
  let cs := if cs.head? = some '-' ∨ cs.head? = some '+' then cs.tail else cs
  let ipart := cs.takeWhile Char.isDigit
  let cs := cs.dropWhile Char.isDigit
  let fpart := if cs.head? = some '.' then cs.tail.takeWhile Char.isDigit else []
  let cs := if cs.head? = some '.' then cs.tail.dropWhile Char.isDigit else cs
  if ipart.isEmpty ∧ fpart.isEmpty then none
  else
    let hasExp := cs.head? = some 'e' ∨ cs.head? = some 'E'
    let et := if (cs.tail.head? = some '+' ∨ cs.tail.head? = some '-') then cs.tail.tail else cs.tail
    let epos := ¬cs.tail.head? = some '-'
    let edigits := if hasExp then et.takeWhile Char.isDigit else []
    let cs := if hasExp then et.dropWhile Char.isDigit else cs
    match cs with
    | _ :: _ => none
    | [] =>
      let m : Int := (natOfDigits ipart * 10 ^ fpart.length + natOfDigits fpart : Nat)
      let e := natOfDigits edigits
      if epos then some (Rat.divInt (sgn * m * 10 ^ e) (10 ^ fpart.length))
      else some (Rat.divInt (sgn * m) (10 ^ (fpart.length + e)))

/-- nom `float` (value-producing). -/
def floatP : Parser Rat := fun i =>
  match recognizeFloatOrExceptions i with
  | .ok r s =>
      (match charsToRat s with
       | some q => .ok r q
       | none => .err)
  | .err => .err
  | .fail => .fail

/-! ## The grammar (src/parser.rs).  The mutually recursive rules take a
fuel argument, decremented at each nested rule invocation; every theorem
supplies enough fuel.  `context(...)` annotations only label errors and are
dropped. -/

/-- src/parser.rs `eol_comment`. -/
def eolComment : Parser (List Char) :=
  preceded (pchar '#') (pisNot ['\n', '\r'])

/-- src/parser.rs `bool`. -/
def boolP : Parser Bool :=
  palt (pvalue false (ptag "false".data)) (pvalue true (ptag "true".data))

/-- src/parser.rs `string`. -/
def stringP : Parser (List Char) :=
  delimited (pchar '"') (pisNot ['\\', '"']) (pcut (pchar '"'))

/-- src/parser.rs `literal`. -/
def literalP : Parser Literal :=
  palt (pmap Literal.number floatP)
    (palt (pmap (fun cs => Literal.string (String.mk cs)) stringP)
      (pmap Literal.bool boolP))

/-- src/parser.rs `identifier`. -/
def identifierP : Parser (List Char) :=
  precognize (pseq (palt alpha1 (ptag ['_'])) (pseq alphanumeric0 (popt (pchar '?'))))

/-- The builtin alternatives of src/parser.rs `builtin`, in the exact
source order (the outer `alt(...).or(alt(...))` is the concatenation of the
two groups; nom's `alt` tries a tuple of branches sequentially, which
`altFold` below replays as a fold). -/
def builtinAlts : List (Builtin × List Char) :=
  [(.add, "+".data), (.sub, "-".data), (.mul, "*".data), (.div, "/".data),
   (.eq, "=".data), (.neg, "!".data), (.le, "<=".data), (.lt, "<".data),
   (.ge, ">=".data), (.gt, ">".data), (.swap, "swap".data),
   (.drop, "drop".data), (.drop2, "2drop".data), (.drop3, "3drop".data),
   (.over, "over".data), (.eval, "eval".data), (.dupd, "dupd".data),
   (.dup, "dup".data), (.dup2, "2dup".data), (.rotl, "rotl".data),
   (.rotr, "rotr".data), (.keep, "keep".data), (.println, "println".data),
   (.ifOp, "if".data), (.nth, "nth".data)]

/-- Sequential trial of `value(b, tag(t))` alternatives. -/
def altFold : List (Builtin × List Char) → Parser Builtin
  | [] => fun _ => .err
  | (b, t) :: rest => palt (pvalue b (ptag t)) (altFold rest)

/-- src/parser.rs `builtin`. -/
def builtinP : Parser Builtin := altFold builtinAlts

mutual
/-- src/parser.rs `statements` (one or more lines of space-separated
statements, flattened).  The fuel argument of these mutually recursive
rules is decremented at every rule invocation; parsing a given input never
needs more fuel than a small multiple of its grammar depth, and every
theorem supplies enough. -/
def statementsP : Nat → Parser (List Statement)
  | 0 => fun _ => .err
  | fuel + 1 =>
      pmap List.flatten
        (preceded multispace0 (sepList1 multispace1 (lineP fuel)))

/-- The `line` closure inside src/parser.rs `statements`. -/
def lineP : Nat → Parser (List Statement)
  | 0 => fun _ => .err
  | fuel + 1 =>
      terminated (sepList0 space1 (statementP fuel))
        (pseq space0 (popt eolComment))

/-- src/parser.rs `statement` (trial order: definition, builtin,
identifier, expression). -/
def statementP : Nat → Parser Statement
  | 0 => fun _ => .err
  | fuel + 1 =>
      palt (definitionP fuel)
        (palt (pmap Statement.builtin builtinP)
          (palt (pmap (fun cs => Statement.word (String.mk cs)) identifierP)
            (pmap Statement.expression (expressionP fuel))))

/-- src/parser.rs `definition`. -/
def definitionP : Nat → Parser Statement
  | 0 => fun _ => .err
  | fuel + 1 =>
      pmap (fun (idp : List Char × Procedure) =>
          Statement.definition (String.mk idp.1) idp.2)
        (preceded (pseq (ptag "def".data) multispace1)
          (pcut (pseq identifierP (preceded multispace0 (procedureP fuel)))))

/-- src/parser.rs `expression` (trial order: literal, procedure, list). -/
def expressionP : Nat → Parser Expression
  | 0 => fun _ => .err
  | fuel + 1 =>
      palt (pmap Expression.literal literalP)
        (palt (pmap Expression.procedure (procedureP fuel))
          (pmap Expression.list (listP fuel)))

/-- src/parser.rs `procedure`. -/
def procedureP : Nat → Parser Procedure
  | 0 => fun _ => .err
  | fuel + 1 =>
      delimited (pchar '\x7b')
        (pcut (pmap Procedure.mk (statementsP fuel)))
        (pcut (pchar '\x7d'))

/-- src/parser.rs `list`. -/
def listP : Nat → Parser (List Expression)
  | 0 => fun _ => .err
  | fuel + 1 =>
      delimited (pchar '[')
        (delimited multispace0 (sepList0 multispace1 (expressionP fuel)) multispace0)
        (pchar ']')
end

/-- src/parser.rs `program`. -/
def programP (fuel : Nat) : Parser Program :=
  pmap Program.mk (allConsuming (statementsP fuel))

/-! ## The evaluation engine (src/interpreter.rs). -/

/-- src/interpreter.rs `struct Interpreter`.  The `verbose` flag only
gates debug printing and is omitted; `println!` output is logged in
`output` instead of being written to stdout. -/
structure Interp where
  stack : List Value
  statements : List Statement
  definitions : List (String × Procedure)
  output : List String
deriving Repr

/-- Result of a fallible interpreter step: Rust methods take `&mut self`
and return `Result<A, String>`, so mutations made before an `Err` persist —
both constructors carry the resulting state. -/
inductive Res (α : Type) where
  | ok : α → Interp → Res α
  | err : String → Interp → Res α
deriving Repr

/-- src/interpreter.rs `Interpreter::expect_args` and the arity-error
message (`"Operation `{name}` expected {args} argument(s), got {n}"`). -/
def arityMsg (name : String) (args n : Nat) : String :=
  "Operation `" ++ name ++ "` expected " ++ toString args ++
    " argument(s), got " ++ toString n

def expectArgs (args : Nat) (name : String) (st : Interp) : Res Unit :=
  if st.stack.length < args then .err (arityMsg name args st.stack.length) st
  else .ok () st

/-- src/interpreter.rs `Interpreter::push` (always `Ok`). -/
def push (v : Value) (st : Interp) : Res Unit :=
  .ok () { st with stack := v :: st.stack }

/-- src/interpreter.rs `Interpreter::pop`: depth check, then
`stack.pop().unwrap()`.  The empty-stack arm after a passed check is
unreachable. -/
def pop (st : Interp) : Res Value :=
  match expectArgs 1 "pop" st with
  | .err e st' => .err e st'
  | .ok _ st' =>
    match st'.stack with
    | v :: rest => .ok v { st' with stack := rest }
    | [] => .err "unreachable: pop on empty stack after depth check" st'

/-- src/interpreter.rs `Interpreter::resolve` (`HashMap::get`). -/
def resolve (identifier : String) (st : Interp) : Except String Procedure :=
  match st.definitions.lookup identifier with
  | some p => .ok p
  | none =>
      .error ("Couldn\x27t resolve identifier " ++ String.mk (debugStr identifier))

/-- src/interpreter.rs `Interpreter::prepend_statements`. -/
def prependStatements (ss : List Statement) (st : Interp) : Interp :=
  { st with statements := ss ++ st.statements }

/-- src/interpreter.rs `Interpreter::def` (`HashMap::insert`, flat
overwrite). -/
def defIns (identifier : String) (p : Procedure) (st : Interp) : Res Unit :=
  .ok () { st with definitions := (identifier, p) :: st.definitions }

/-- src/interpreter.rs `Interpreter::word`: resolve, then splice the body
to the front of the pending queue. -/
def wordStep (w : String) (st : Interp) : Res Unit :=
  match resolve w st with
  | .error e => .err e st
  | .ok p =>
    match p with
    | .mk ss => .ok () (prependStatements ss st)

/-- Binary-operator skeleton shared by `add`/`sub`/`mul`/`div`
(src/interpreter.rs): depth check, pop `b` then `a`, combine, push. -/
def binOp (name : String) (f : Value → Value → Except String Value)
    (st : Interp) : Res Unit :=
  match expectArgs 2 name st with
  | .err e st' => .err e st'
  | .ok _ st' =>
    match pop st' with
    | .err e st'' => .err e st''
    | .ok b st'' =>
      match pop st'' with
      | .err e st₃ => .err e st₃
      | .ok a st₃ =>
        match f a b with
        | .error e => .err e st₃
        | .ok v => push v st₃

/-- src/interpreter.rs `Interpreter::eq`. -/
def eqOp (st : Interp) : Res Unit :=
  match expectArgs 2 "=" st with
  | .err e st' => .err e st'
  | .ok _ st' =>
    match pop st' with
    | .err e st'' => .err e st''
    | .ok b st'' =>
      match pop st'' with
      | .err e st₃ => .err e st₃
      | .ok a st₃ => push (.bool (beqValue a b)) st₃

/-- Comparison skeleton shared by `lt`/`le`/`gt`/`ge`. -/
def cmpOp (name : String) (f : Value → Value → Bool) (st : Interp) : Res Unit :=
  match expectArgs 2 name st with
  | .err e st' => .err e st'
  | .ok _ st' =>
    match pop st' with
    | .err e st'' => .err e st''
    | .ok b st'' =>
      match pop st'' with
      | .err e st₃ => .err e st₃
      | .ok a st₃ => push (.bool (f a b)) st₃

/-- src/interpreter.rs `Interpreter::neg`. -/
def negOp (st : Interp) : Res Unit :=
  match expectArgs 1 "!" st with
  | .err e st' => .err e st'
  | .ok _ st' =>
    match pop st' with
    | .err e st'' => .err e st''
    | .ok a st'' =>
      match valueNot a with
      | .error e => .err e st''
      | .ok v => push v st''

/-- src/interpreter.rs `Interpreter::dup` (`stack.last().unwrap()` then
push a clone). -/
def dupOp (st : Interp) : Res Unit :=
  match expectArgs 1 "dup" st with
  | .err e st' => .err e st'
  | .ok _ st' =>
    match st'.stack with
    | v :: _ => push v st'
    | [] => .err "unreachable: dup on empty stack after depth check" st'

/-- src/interpreter.rs `Interpreter::swap` (`stack.swap(n-1, n-2)`). -/
def swapOp (st : Interp) : Res Unit :=
  match expectArgs 2 "swap" st with
  | .err e st' => .err e st'
  | .ok _ st' =>
    match st'.stack with
    | b :: a :: rest => .ok () { st' with stack := a :: b :: rest }
    | _ => .err "unreachable: swap arity" st'

/-- src/interpreter.rs `Interpreter::drop`. -/
def dropOp (st : Interp) : Res Unit :=
  match expectArgs 1 "drop" st with
  | .err e st' => .err e st'
  | .ok _ st' =>
    match pop st' with
    | .err e st'' => .err e st''
    | .ok _ st'' => .ok () st''

/-- src/interpreter.rs `Interpreter::over` (push a copy of the
second-from-top). -/
def overOp (st : Interp) : Res Unit :=
  match expectArgs 2 "over" st with
  | .err e st' => .err e st'
  | .ok _ st' =>
    match st'.stack with
    | _ :: a :: _ => push a st'
    | _ => .err "unreachable: over arity" st'

/-- src/interpreter.rs `Interpreter::dupd` (insert a copy of the
second-from-top just below the top). -/
def dupdOp (st : Interp) : Res Unit :=
  match expectArgs 2 "dupd" st with
  | .err e st' => .err e st'
  | .ok _ st' =>
    match st'.stack with
    | b :: a :: rest => .ok () { st' with stack := b :: a :: a :: rest }
    | _ => .err "unreachable: dupd arity" st'

/-- src/interpreter.rs `Interpreter::keep`: pop the quotation `b`, clone
the new top `a` (leaving it in place), queue `Value(a)` behind the spliced
body. -/
def keepOp (st : Interp) : Res Unit :=
  match expectArgs 2 "keep" st with
  | .err e st' => .err e st'
  | .ok _ st' =>
    match pop st' with
    | .err e st'' => .err e st''
    | .ok b st'' =>
      match st''.stack with
      | a :: _ =>
        (match b with
         | .procedure (.mk s) =>
             .ok ()
               (prependStatements s
                 { st'' with statements := Statement.value a :: st''.statements })
         | _ => .err ("Can\x27t evaluate " ++ vstr b) st'')
      | [] => .err "unreachable: keep arity" st''

/-- src/interpreter.rs `Interpreter::eval`. -/
def evalOp (st : Interp) : Res Unit :=
  match expectArgs 1 "eval" st with
  | .err e st' => .err e st'
  | .ok _ st' =>
    match pop st' with
    | .err e st'' => .err e st''
    | .ok v st'' =>
      match v with
      | .procedure (.mk s) => .ok () (prependStatements s st'')
      | v => .err ("Can\x27t evaluate " ++ vstr v) st''

/-- src/interpreter.rs `Interpreter::println` (strings print unquoted,
everything else through its display form). -/
def printlnOp (st : Interp) : Res Unit :=
  match expectArgs 1 "println" st with
  | .err e st' => .err e st'
  | .ok _ st' =>
    match pop st' with
    | .err e st'' => .err e st''
    | .ok v st'' =>
      match v with
      | .string s => .ok () { st'' with output := st''.output ++ [s] }
      | v => .ok () { st'' with output := st''.output ++ [vstr v] }

/-- src/interpreter.rs `Interpreter::evaluate_if` (operation name `"?"`;
any non-`Bool(true)` condition selects the else branch). -/
def ifOpStep (st : Interp) : Res Unit :=
  match expectArgs 3 "?" st with
  | .err e st' => .err e st'
  | .ok _ st' =>
    match pop st' with
    | .err e st'' => .err e st''
    | .ok esle st'' =>
      match pop st'' with
      | .err e st₃ => .err e st₃
      | .ok then' st₃ =>
        match pop st₃ with
        | .err e st₄ => .err e st₄
        | .ok cond st₄ =>
          let t := if beqValue cond (.bool true) then then' else esle
          match t with
          | .procedure (.mk s) => .ok () (prependStatements s st₄)
          | _ => .err ("Can\x27t evaluate " ++ vstr t) st₄

/-- src/interpreter.rs `Interpreter::nth`.  The `n as usize` cast
saturates, so a negative integral index selects element 0. -/
def nthOp (st : Interp) : Res Unit :=
  match expectArgs 2 "nth" st with
  | .err e st' => .err e st'
  | .ok _ st' =>
    match pop st' with
    | .err e st'' => .err e st''
    | .ok b st'' =>
      match pop st'' with
      | .err e st₃ => .err e st₃
      | .ok a st₃ =>
        match a, b with
        | .number n, .list s =>
          if ratFract n = 0 then
            match s.get? (f64ToUsize n) with
            | some v => push v st₃
            | none =>
                .err ("Index " ++ String.mk (displayNumber n) ++ " out of bounds") st₃
          else
            .err ("Can\x27t index " ++ vstr (Value.list s) ++ " by " ++
              vstr (Value.number n)) st₃
        | a, b => .err ("Can\x27t index " ++ vstr b ++ " by " ++ vstr a) st₃

/-- Modelled from the spec: `2dup` — "Duplicate top two, preserving order"
(§4.2, arity 2→4).  The parser and its tests reference `Builtin::Dup2`, but
src/ast.rs lacks the variant and src/interpreter.rs the implementation. -/
def dup2Op (st : Interp) : Res Unit :=
  match expectArgs 2 "2dup" st with
  | .err e st' => .err e st'
  | .ok _ st' =>
    match st'.stack with
    | b :: a :: rest => .ok () { st' with stack := b :: a :: b :: a :: rest }
    | _ => .err "unreachable: 2dup arity" st'

/-- Modelled from the spec: `2drop` — discard the top two (§4.2). -/
def drop2Op (st : Interp) : Res Unit :=
  match expectArgs 2 "2drop" st with
  | .err e st' => .err e st'
  | .ok _ st' =>
    match st'.stack with
    | _ :: _ :: rest => .ok () { st' with stack := rest }
    | _ => .err "unreachable: 2drop arity" st'

/-- Modelled from the spec: `3drop` — discard the top three (§4.2). -/
def drop3Op (st : Interp) : Res Unit :=
  match expectArgs 3 "3drop" st with
  | .err e st' => .err e st'
  | .ok _ st' =>
    match st'.stack with
    | _ :: _ :: _ :: rest => .ok () { st' with stack := rest }
    | _ => .err "unreachable: 3drop arity" st'

/-- Modelled from the spec: `rotl` — rotate top three left,
`a b c -- b c a` (§4.2). -/
def rotlOp (st : Interp) : Res Unit :=
  match expectArgs 3 "rotl" st with
  | .err e st' => .err e st'
  | .ok _ st' =>
    match st'.stack with
    | c :: b :: a :: rest => .ok () { st' with stack := a :: c :: b :: rest }
    | _ => .err "unreachable: rotl arity" st'

/-- Modelled from the spec: `rotr` — rotate top three right,
`a b c -- c a b` (§4.2). -/
def rotrOp (st : Interp) : Res Unit :=
  match expectArgs 3 "rotr" st with
  | .err e st' => .err e st'
  | .ok _ st' =>
    match st'.stack with
    | c :: b :: a :: rest => .ok () { st' with stack := b :: a :: c :: rest }
    | _ => .err "unreachable: rotr arity" st'

/-- src/interpreter.rs `Interpreter::evaluate_builtin` (plus the five
spec-modelled operations). -/
def evalBuiltin : Builtin → Interp → Res Unit
  | .add => binOp "+" valueAdd
  | .sub => binOp "-" valueSub
  | .mul => binOp "*" valueMul
  | .div => binOp "/" valueDiv
  | .eq => eqOp
  | .neg => negOp
  | .lt => cmpOp "<" valueLtb
  | .le => cmpOp "<=" valueLeb
  | .gt => cmpOp ">" valueGtb
  | .ge => cmpOp ">=" valueGeb
  | .dup => dupOp
  | .swap => swapOp
  | .drop => dropOp
  | .over => overOp
  | .dupd => dupdOp
  | .keep => keepOp
  | .eval => evalOp
  | .println => printlnOp
  | .ifOp => ifOpStep
  | .nth => nthOp
  | .dup2 => dup2Op
  | .drop2 => drop2Op
  | .drop3 => drop3Op
  | .rotl => rotlOp
  | .rotr => rotrOp

/-- src/interpreter.rs `Interpreter::statement` (single-statement
dispatch; `evaluate_expression` is the infallible `Into` conversion). -/
def stepStatement (s : Statement) (st : Interp) : Res Unit :=
  match s with
  | .expression e => push (valueOfExpression e) st
  | .builtin b => evalBuiltin b st
  | .value v => push v st
  | .definition identifier p => defIns identifier p st
  | .word w => wordStep w st

/-- src/interpreter.rs `Interpreter::run_statements`: drain the pending
queue front-to-back until empty or the first error.  `none` means the fuel
ran out (the Rust loop just keeps going; every theorem supplies enough
fuel). -/
def runStatements : Nat → Interp → Option (Res Unit)
  | 0, st =>
    match st.statements with
    | [] => some (.ok () st)
    | _ :: _ => none
  | fuel + 1, st =>
    match st.statements with
    | [] => some (.ok () st)
    | s :: rest =>
      match stepStatement s { st with statements := rest } with
      | .ok _ st' => runStatements fuel st'
      | .err e st' => some (.err e st')

/-- src/interpreter.rs `Interpreter::run_program`: append the program to
the back of the pending queue, drain, and return the (cloned) top of
stack. -/
def runProgram (fuel : Nat) (st : Interp) (program : Program) :
    Option (Res (Option Value)) :=
  match runStatements fuel { st with statements := st.statements ++ program.statements } with
  | none => none
  | some (.err e st') => some (.err e st')
  | some (.ok _ st') => some (.ok st'.stack.head? st')

/-- src/interpreter.rs `Interpreter::new` (fresh engine: everything
empty). -/
def Interp.new : Interp := ⟨[], [], [], []⟩

/-- Arity of each builtin: the `args` argument of the `expect_args` call
that guards it in src/interpreter.rs (spec §4.2 for the five modelled
operations). -/
def builtinArity : Builtin → Nat
  | .add | .sub | .mul | .div | .eq | .lt | .le | .gt | .ge => 2
  | .neg | .dup | .drop | .eval | .println => 1
  | .swap | .over | .dupd | .keep | .nth | .dup2 | .drop2 => 2
  | .ifOp | .drop3 | .rotl | .rotr => 3

/-! ## The canonical expression of a value, and the well-behaved fragment
for the literal round-trip (claim C1). -/

mutual
/-- The expression whose evaluation yields a given value, with the same
display: what a successful re-parse of the value's rendering produces. -/
def exprOfValue : Value → Expression
  | .bool b => .literal (.bool b)
  | .number q => .literal (.number q)
  | .string s => .literal (.string s)
  | .procedure p => .procedure p
  | .list vs => .list (exprOfValueList vs)

def exprOfValueList : List Value → List Expression
  | [] => []
  | v :: vs => exprOfValue v :: exprOfValueList vs
end

/-- Numbers for which the rational model of formatting and reparsing is
exact: integral values of magnitude at most `2^24` (representable exactly
in the `f32` the literal grammar produces and displayed as plain decimal
digits). -/
def intLike (q : Rat) : Bool := q.den == 1 && decide (q.num.natAbs ≤ 2 ^ 24)

/-- Characters that Rust's string `Debug` formatting leaves unescaped and
that terminate neither the string parser (`is_not("\\\"")`) nor its
delimiters: printable ASCII except quote and backslash. -/
def plainChar (c : Char) : Bool :=
  decide (0x20 ≤ c.toNat) && decide (c.toNat ≤ 0x7e) && !(c == '"') && !(c == '\\')

/-- Strings whose rendering reparses: nonempty (`is_not` demands at least
one character) and made of plain characters. -/
def goodStr (s : String) : Bool := !s.data.isEmpty && s.data.all plainChar

/-- Tail of the identifier grammar: alphanumerics with an optional final
`?`. -/
def identTail : List Char → Bool
  | [] => true
  | c :: cs => if c = '?' then cs.isEmpty else c.isAlphanum && identTail cs

/-- Exactly the words the `identifier` rule consumes whole:
`(letter | '_') alnum* '?'?` (ASCII). -/
def identShape : List Char → Bool
  | [] => false
  | c :: cs => (c.isAlpha || c == '_') && identTail cs

/-- The tokens of the builtin alternatives. -/
def builtinTags : List (List Char) := builtinAlts.map Prod.snd

/-- No builtin token is a prefix of the word (otherwise the statement rule
would misparse the word as that builtin). -/
def noBuiltinPrefix (w : List Char) : Bool :=
  builtinTags.all (fun t => !listPrefix t w)

/-- Words whose rendering reparses as the same word: identifier-shaped,
not starting with a builtin token, and not starting with `def`. -/
def goodWord (w : String) : Bool :=
  identShape w.data && noBuiltinPrefix w.data && !(listPrefix "def".data w.data)

mutual
/-- Expressions (in expression position: list items, top-level values)
whose rendering reparses to themselves. -/
def goodExpr : Expression → Bool
  | .literal (.bool _) => true
  | .literal (.number q) => intLike q
  | .literal (.string s) => goodStr s
  | .procedure p => goodProc p
  | .list es => goodExprList es

def goodExprList : List Expression → Bool
  | [] => true
  | e :: es => goodExpr e && goodExprList es

def goodProc : Procedure → Bool
  | .mk ss => goodStmtList ss

def goodStmtList : List Statement → Bool
  | [] => true
  | s :: ss => goodStmt s && goodStmtList ss

/-- Statements whose rendering reparses to themselves.  In statement
position boolean literals render as `true`/`false` and reparse as words;
negative numbers reparse as the `-` builtin; `?` (the `if` builtin's
display) is not a builtin token; `Value` statements are a runtime-only
construct whose rendering reparses as an expression — all are excluded. -/
def goodStmt : Statement → Bool
  | .expression (.literal (.bool _)) => false
  | .expression (.literal (.number q)) => intLike q && decide (0 ≤ q.num)
  | .expression (.literal (.string s)) => goodStr s
  | .expression (.procedure p) => goodProc p
  | .expression (.list es) => goodExprList es
  | .builtin b => !(b == .ifOp)
  | .value _ => false
  | .definition id p => identShape id.data && goodProc p
  | .word w => goodWord w
end

mutual
/-- Values whose rendering reparses to an equal value. -/
def goodValue : Value → Bool
  | .bool _ => true
  | .number q => intLike q
  | .string s => goodStr s
  | .procedure p => goodProc p
  | .list vs => goodValueList vs

def goodValueList : List Value → Bool
  | [] => true
  | v :: vs => goodValue v && goodValueList vs
end

mutual
/-- Fuel lower bound for parsing a rendered expression (each grammar rule
level costs one unit of fuel). -/
def wExpr : Expression → Nat
  | .literal _ => 1
  | .procedure p => wProc p + 1
  | .list es => wExprList es + 2

def wExprList : List Expression → Nat
  | [] => 1
  | e :: es => wExpr e + wExprList es

def wProc : Procedure → Nat
  | .mk ss => wStmtList ss + 3

def wStmtList : List Statement → Nat
  | [] => 1
  | s :: ss => wStmt s + wStmtList ss

def wStmt : Statement → Nat
  | .expression e => wExpr e + 1
  | .definition _ p => wProc p + 2
  | _ => 1
end

/-- Fuel lower bound for parsing a rendered value as an expression. -/
def wValue (v : Value) : Nat := wExpr (exprOfValue v)

/-- What may follow a rendered item inside a larger rendering: nothing (at
top level) or a space (the displays separate items with spaces). -/
def restOK (rest : List Char) : Prop := rest = [] ∨ ∃ tl, rest = ' ' :: tl

/-- The input ahead does not start with a character satisfying `f` (so a
maximal `takeWhile f` run stops exactly here). -/
def nextNot (f : Char → Bool) : List Char → Prop
  | [] => True
  | c :: _ => f c = false

/-- Round-trip property of one expression: parsing its rendering (followed
by an admissible continuation) consumes exactly the rendering and returns
the expression. -/
def SEProp (e : Expression) : Prop :=
  ∀ f rest, wExpr e ≤ f → goodExpr e = true → restOK rest →
    expressionP f (displayExpression e ++ rest) = PRes.ok rest e

/-- Round-trip property of the `(multispace1 expression)*` loop over the
rendered items of a list, stopping at the closing space-bracket. -/
def SItemsProp (es : List Expression) : Prop :=
  ∀ f gas rest, wExprList es ≤ f → es.length < gas → goodExprList es = true →
    sepGo multispace1 (expressionP f) gas
        (displayExpressionItems es ++ ' ' :: ']' :: rest) =
      PRes.ok (' ' :: ']' :: rest) es

/-- Round-trip property of a whole rendered list expression under the
`list` rule. -/
def SListProp (es : List Expression) : Prop :=
  ∀ f rest, wExprList es + 1 ≤ f → goodExprList es = true →
    listP f (displayExpression (Expression.list es) ++ rest) = PRes.ok rest es

/-- Round-trip property of a rendered procedure under the `procedure`
rule (nothing after the closing brace is inspected). -/
def SPProp (p : Procedure) : Prop :=
  ∀ f rest, wProc p ≤ f → goodProc p = true →
    procedureP f (displayProcedure p ++ rest) = PRes.ok rest p

/-- Round-trip property of one statement under the `statement` rule. -/
def SSProp (s : Statement) : Prop :=
  ∀ f rest, wStmt s ≤ f → goodStmt s = true → restOK rest →
    statementP f (displayStatement s ++ rest) = PRes.ok rest s

/-- Round-trip property of the `(space1 statement)*` loop over the
rendered statements of a procedure body, stopping at the closing
space-brace. -/
def SLProp (ss : List Statement) : Prop :=
  ∀ f gas rest, wStmtList ss ≤ f → ss.length < gas → goodStmtList ss = true →
    sepGo space1 (statementP f) gas
        (displayStatementItems ss ++ ' ' :: '\x7d' :: rest) =
      PRes.ok (' ' :: '\x7d' :: rest) ss

/-! ## Theorems for the claims -/

/-- Claim C3: statement parsing tries definition, builtin, identifier,
expression in that order, so the single-statement input `true` parses as a
`Word` (not a boolean-literal expression), and running it on a fresh
engine fails with an unresolved-identifier error instead of pushing
`Bool(true)`. -/
theorem c3_true_is_word_and_unresolved :
    programP 10 "true".data = .ok [] ⟨[Statement.word "true"]⟩ ∧
    runProgram 10 Interp.new ⟨[Statement.word "true"]⟩ =
      some (.err "Couldn\x27t resolve identifier \"true\"" Interp.new) :=
  ⟨rfl, rfl⟩

/-- Claim C9: the inputs `<=` and `>=` parse as the `Le`/`Ge` builtins with
the whole token consumed — never as `Lt`/`Gt` with a leftover `=` — both at
the `builtin` rule and at the `statement` rule. -/
theorem c9_le_ge_longest_prefix_first :
    builtinP "<=".data = .ok [] .le ∧
    builtinP ">=".data = .ok [] .ge ∧
    statementP 10 "<=".data = .ok [] (.builtin .le) ∧
    statementP 10 ">=".data = .ok [] (.builtin .ge) :=
  ⟨rfl, rfl, rfl, rfl⟩

/-- Claim C5: every builtin of arity `N`, executed on a stack of depth
`< N`, fails with the arity error naming the operation, `N`, and the
actual depth, and leaves the engine state exactly unchanged. -/
theorem c5_arity_check (b : Builtin) (st : Interp)
    (h : st.stack.length < builtinArity b) :
    evalBuiltin b st =
      .err (arityMsg (builtinToStr b) (builtinArity b) st.stack.length) st := by
  cases b <;>
    simp_all [evalBuiltin, binOp, eqOp, cmpOp, negOp, dupOp, swapOp, dropOp,
      overOp, dupdOp, keepOp, evalOp, printlnOp, ifOpStep, nthOp, dup2Op,
      drop2Op, drop3Op, rotlOp, rotrOp, expectArgs, builtinArity, builtinToStr]

/-- Witness for C5 at a concrete input: `nth` on an empty stack. -/
theorem c5_arity_check_witness :
    evalBuiltin .nth Interp.new = .err (arityMsg "nth" 2 0) Interp.new :=
  c5_arity_check .nth Interp.new (by decide)

/-- Claim C7: whenever the drain of the pending queue succeeds,
`run_program` returns the top of the final stack — `Some v` for a
non-empty final stack with top `v`, `None` for an empty one. -/
theorem c7_run_returns_top (fuel : Nat) (st : Interp) (prog : Program)
    (st' : Interp)
    (h : runStatements fuel
        { st with statements := st.statements ++ prog.statements } =
      some (.ok () st')) :
    runProgram fuel st prog = some (.ok st'.stack.head? st') ∧
    (st'.stack = [] → runProgram fuel st prog = some (.ok none st')) ∧
    (∀ v tl, st'.stack = v :: tl →
      runProgram fuel st prog = some (.ok (some v) st')) := by
  refine ⟨?_, ?_, ?_⟩
  · simp [runProgram, h]
  · intro he; simp [runProgram, h, he]
  · intro v tl he; simp [runProgram, h, he]

/-- Witness for C7 at concrete inputs: a program pushing `5` (non-empty
final stack) and the empty program (empty final stack). -/
theorem c7_run_returns_top_witness :
    runProgram 10 Interp.new ⟨[.expression (.literal (.number (ratI 5)))]⟩ =
      some (.ok (some (.number (ratI 5))) ⟨[.number (ratI 5)], [], [], []⟩) ∧
    runProgram 10 Interp.new ⟨[]⟩ = some (.ok none Interp.new) :=
  ⟨(c7_run_returns_top 10 Interp.new
      ⟨[.expression (.literal (.number (ratI 5)))]⟩
      ⟨[.number (ratI 5)], [], [], []⟩ rfl).2.2 (.number (ratI 5)) [] rfl,
   (c7_run_returns_top 10 Interp.new ⟨[]⟩ Interp.new rfl).2.1 rfl⟩

/-- Claim C6: `def inc { 1 + }` then `inc` on stack `[5]` leaves `[6]`; a
`Word` bound to a procedure splices the body, in order, to the front of the
pending queue; an unbound `Word` is an unresolved-identifier error. -/
theorem c6_definition_and_word :
    (runProgram 100 { Interp.new with stack := [.number (ratI 5)] }
        ⟨[.definition "inc" (.mk [.expression (.literal (.number (ratI 1))),
            .builtin .add]), .word "inc"]⟩ =
      some (.ok (some (.number (ratI 6)))
        ⟨[.number (ratI 6)], [],
         [("inc", .mk [.expression (.literal (.number (ratI 1))),
             .builtin .add])], []⟩)) ∧
    (∀ (st : Interp) (w : String) (ss : List Statement),
      st.definitions.lookup w = some (.mk ss) →
      stepStatement (.word w) st = .ok () { st with statements := ss ++ st.statements }) ∧
    (∀ (st : Interp) (w : String),
      st.definitions.lookup w = none →
      stepStatement (.word w) st =
        .err ("Couldn\x27t resolve identifier " ++ String.mk (debugStr w)) st) := by
  refine ⟨rfl, ?_, ?_⟩
  · intro st w ss h
    simp [stepStatement, wordStep, resolve, prependStatements, h]
  · intro st w h
    simp [stepStatement, wordStep, resolve, h]

/-- Witness for C6's quantified parts at concrete inputs. -/
theorem c6_definition_and_word_witness :
    stepStatement (.word "f")
        ⟨[], [.builtin .dup], [("f", .mk [.builtin .add])], []⟩ =
      .ok () ⟨[], [.builtin .add, .builtin .dup], [("f", .mk [.builtin .add])], []⟩ ∧
    stepStatement (.word "g") Interp.new =
      .err ("Couldn\x27t resolve identifier " ++ String.mk (debugStr "g"))
        Interp.new :=
  ⟨c6_definition_and_word.2.1 ⟨[], [.builtin .dup], [("f", .mk [.builtin .add])], []⟩
      "f" [.builtin .add] rfl,
   c6_definition_and_word.2.2 Interp.new "g" rfl⟩

/-- Claim C8: `keep` pops the quotation, runs its body, and then restores
the value that was below it: on stack `[5]` (bottom→top) with quotation
`{ 1 + }`, the final stack is `[6, 5]` (top `5`); `keep` with a
non-procedure on top is an error. -/
theorem c8_keep :
    (runStatements 100
        { Interp.new with
          stack := [.procedure (.mk [.expression (.literal (.number (ratI 1))),
              .builtin .add]), .number (ratI 5)],
          statements := [.builtin .keep] } =
      some (.ok () ⟨[.number (ratI 5), .number (ratI 6)], [], [], []⟩)) ∧
    (∀ (st : Interp) (b a : Value) (rest : List Value),
      st.stack = b :: a :: rest →
      (∀ p, b ≠ .procedure p) →
      evalBuiltin .keep st =
        .err ("Can\x27t evaluate " ++ vstr b) { st with stack := a :: rest }) := by
  refine ⟨rfl, ?_⟩
  intro st b a rest hs hb
  obtain ⟨stk, sts, defs, out⟩ := st
  simp only at hs
  subst hs
  cases b <;>
    simp [evalBuiltin, keepOp, expectArgs, pop, prependStatements,
      show ¬(rest.length + 1 + 1 < 2) from by omega,
      show ¬(rest.length + 1 < 1) from by omega]
  exact absurd rfl (hb _)

/-- Witness for C8's quantified part: `keep` with a number on top. -/
theorem c8_keep_witness :
    evalBuiltin .keep
        { Interp.new with stack := [.number (ratI 3), .bool true] } =
      .err ("Can\x27t evaluate " ++ vstr (.number (ratI 3)))
        { Interp.new with stack := [.bool true] } :=
  c8_keep.2 _ (.number (ratI 3)) (.bool true) [] rfl (fun p h => by cases h)

/-- Claim C4 (spec-modelled: `Builtin::Dup2` is referenced by the parser
and its tests but missing from src/ast.rs and src/interpreter.rs; its
execution is modelled from spec §4.2): `2dup` parses, has arity 2,
duplicates the top two values preserving order, and is an arity error on
depth `< 2`. -/
theorem c4_dup2 :
    (builtinP "2dup".data = .ok [] .dup2) ∧
    (∀ (st : Interp) (b a : Value) (rest : List Value),
      st.stack = b :: a :: rest →
      evalBuiltin .dup2 st = .ok () { st with stack := b :: a :: b :: a :: rest }) ∧
    (∀ st : Interp, st.stack.length < 2 →
      evalBuiltin .dup2 st = .err (arityMsg "2dup" 2 st.stack.length) st) := by
  refine ⟨rfl, ?_, ?_⟩
  · intro st b a rest hs
    obtain ⟨stk, sts, defs, out⟩ := st
    simp only at hs
    subst hs
    simp [evalBuiltin, dup2Op, expectArgs,
      show ¬(rest.length + 1 + 1 < 2) from by omega]
  · intro st h
    simp [evalBuiltin, dup2Op, expectArgs, h, arityMsg]

/-- Witness for C4's quantified parts at concrete inputs. -/
theorem c4_dup2_witness :
    evalBuiltin .dup2
        { Interp.new with stack := [.number (ratI 2), .number (ratI 1)] } =
      .ok () { Interp.new with
        stack := [.number (ratI 2), .number (ratI 1), .number (ratI 2),
          .number (ratI 1)] } ∧
    evalBuiltin .dup2 Interp.new = .err (arityMsg "2dup" 2 0) Interp.new :=
  ⟨c4_dup2.2.1 _ (.number (ratI 2)) (.number (ratI 1)) [] rfl,
   c4_dup2.2.2 Interp.new (by decide)⟩

/-- Claim C2, counterexample: `nth` with the negative integral index `-1`
on the list `[10 20 30]` does *not* error — the saturating `as usize` cast
turns `-1` into index `0` and the first element is pushed. -/
theorem c2_counterexample_negative_index :
    nthOp
        { Interp.new with
          stack := [.list [.number (ratI 10), .number (ratI 20),
              .number (ratI 30)], .number (ratI (-1))] } =
      .ok () { Interp.new with stack := [.number (ratI 10)] } := rfl

/-- Claim C2 as amended: with a List on top and a Number below it, an
integral in-range index (after the saturating cast) pushes the indexed
item — in particular a negative integral index acts as index `0` and
pushes the first element of a non-empty list; an integral index that is
out of range after the cast (≥ length, or negative on an empty list) is an
index-out-of-bounds error; a non-integral index is a type error, as is any
operand shape other than (Number, List). -/
theorem c2_nth_amended :
    (∀ (st : Interp) (n : Rat) (vs : List Value) (rest : List Value)
      (v : Value),
      st.stack = .list vs :: .number n :: rest →
      ratFract n = 0 →
      vs.get? (f64ToUsize n) = some v →
      nthOp st = .ok () { st with stack := v :: rest }) ∧
    (∀ (st : Interp) (m : Int) (v : Value) (vs : List Value)
      (rest : List Value),
      st.stack = .list (v :: vs) :: .number (ratI m) :: rest →
      m < 0 →
      nthOp st = .ok () { st with stack := v :: rest }) ∧
    (∀ (st : Interp) (n : Rat) (vs : List Value) (rest : List Value),
      st.stack = .list vs :: .number n :: rest →
      ratFract n = 0 →
      vs.get? (f64ToUsize n) = none →
      nthOp st =
        .err ("Index " ++ String.mk (displayNumber n) ++ " out of bounds")
          { st with stack := rest }) ∧
    (∀ (st : Interp) (n : Rat) (vs : List Value) (rest : List Value),
      st.stack = .list vs :: .number n :: rest →
      ratFract n ≠ 0 →
      nthOp st =
        .err ("Can\x27t index " ++ vstr (.list vs) ++ " by " ++ vstr (.number n))
          { st with stack := rest }) ∧
    (∀ (st : Interp) (v w : Value) (rest : List Value),
      st.stack = v :: w :: rest →
      (∀ (n : Rat) (vs : List Value), ¬(w = .number n ∧ v = .list vs)) →
      nthOp st =
        .err ("Can\x27t index " ++ vstr v ++ " by " ++ vstr w)
          { st with stack := rest }) := by
  refine ⟨?_, ?_, ?_, ?_, ?_⟩
  · intro st n vs rest v hs hf hg
    obtain ⟨stk, sts, defs, out⟩ := st
    simp only at hs
    subst hs
    simp [nthOp, expectArgs, pop, push, hf, ← List.get?_eq_getElem?, hg,
      show ¬(rest.length + 1 + 1 < 2) from by omega,
      show ¬(rest.length + 1 < 1) from by omega]
  · intro st m v vs rest hs hm
    have hf : ratFract (ratI m) = 0 := by
      simp [ratFract, ratSub, ratTrunc, ratI, Nat.cast_one, Int.tdiv_one]
    have hz : f64ToUsize (ratI m) = 0 := by
      simp only [f64ToUsize, ratTrunc, ratI, Nat.cast_one, Int.tdiv_one]
      rw [if_pos hm]
    obtain ⟨stk, sts, defs, out⟩ := st
    simp only at hs
    subst hs
    simp [nthOp, expectArgs, pop, push, hf, hz, ← List.get?_eq_getElem?,
      show ¬(rest.length + 1 + 1 < 2) from by omega,
      show ¬(rest.length + 1 < 1) from by omega]
  · intro st n vs rest hs hf hg
    obtain ⟨stk, sts, defs, out⟩ := st
    simp only at hs
    subst hs
    simp [nthOp, expectArgs, pop, push, hf, ← List.get?_eq_getElem?, hg,
      show ¬(rest.length + 1 + 1 < 2) from by omega,
      show ¬(rest.length + 1 < 1) from by omega]
  · intro st n vs rest hs hf
    obtain ⟨stk, sts, defs, out⟩ := st
    simp only at hs
    subst hs
    simp [nthOp, expectArgs, pop, push, hf,
      show ¬(rest.length + 1 + 1 < 2) from by omega,
      show ¬(rest.length + 1 < 1) from by omega]
  · intro st v w rest hs hvw
    obtain ⟨stk, sts, defs, out⟩ := st
    simp only at hs
    subst hs
    rcases v with _ | _ | _ | _ | vs <;> rcases w with _ | n | _ | _ | _ <;>
      simp [nthOp, expectArgs, pop, push,
        show ¬(rest.length + 1 + 1 < 2) from by omega,
        show ¬(rest.length + 1 < 1) from by omega] <;>
      exact absurd ⟨rfl, rfl⟩ (hvw _ _)

/-- Witness for C2's amended theorem: the in-range case at index `0` and
the negative-index case at `-1`. -/
theorem c2_nth_amended_witness :
    nthOp
        { Interp.new with
          stack := [.list [.number (ratI 10), .number (ratI 20),
              .number (ratI 30)], .number (ratI 0)] } =
      .ok () { Interp.new with stack := [.number (ratI 10)] } ∧
    nthOp
        { Interp.new with
          stack := [.list [.number (ratI 10)], .number (ratI 5)] } =
      .err ("Index " ++ String.mk (displayNumber (ratI 5)) ++ " out of bounds")
        { Interp.new with stack := [] } :=
  ⟨c2_nth_amended.1 _ (ratI 0) _ [] (.number (ratI 10)) rfl (by decide) rfl,
   c2_nth_amended.2.2.1 _ (ratI 5) [.number (ratI 10)] [] rfl (by decide) rfl⟩

/-- A `binOp` (`+`, `-`, `*`, `/`) on a stack of depth ≥ 2 that errors has
popped exactly its two operands. -/
theorem binOp_err_drops_operands (name : String)
    (f : Value → Value → Except String Value) (x y : Value) (m : List Value)
    (sts : List Statement) (defs : List (String × Procedure))
    (out : List String) (e : String) (st' : Interp)
    (h : binOp name f ⟨x :: y :: m, sts, defs, out⟩ = .err e st') :
    st'.stack = m := by
  rcases hf : f y x with e' | v <;>
    simp_all [binOp, expectArgs, pop, push, hf,
      show ¬(m.length + 1 + 1 < 2) from by omega,
      show ¬(m.length + 1 < 1) from by omega]
  exact congrArg Interp.stack h.2.symm

/-- `eqOp` on a stack of depth ≥ 2 never errors. -/
theorem eqOp_no_err (x y : Value) (m : List Value) (sts : List Statement)
    (defs : List (String × Procedure)) (out : List String) (e : String)
    (st' : Interp) (h : eqOp ⟨x :: y :: m, sts, defs, out⟩ = .err e st') :
    False := by
  simp_all [eqOp, expectArgs, pop, push,
    show ¬(m.length + 1 + 1 < 2) from by omega,
    show ¬(m.length + 1 < 1) from by omega]

/-- A `cmpOp` (`<`, `<=`, `>`, `>=`) on a stack of depth ≥ 2 never
errors. -/
theorem cmpOp_no_err (name : String) (f : Value → Value → Bool) (x y : Value)
    (m : List Value) (sts : List Statement)
    (defs : List (String × Procedure)) (out : List String) (e : String)
    (st' : Interp) (h : cmpOp name f ⟨x :: y :: m, sts, defs, out⟩ = .err e st') :
    False := by
  simp_all [cmpOp, expectArgs, pop, push,
    show ¬(m.length + 1 + 1 < 2) from by omega,
    show ¬(m.length + 1 < 1) from by omega]

/-- Claim C10: each binary arithmetic/comparison builtin on a stack of
depth ≥ 2 pops both operands before inspecting their types, so whenever it
fails (which for `=`, `<`, `<=`, `>`, `>=` never happens — they only fail
the arity check) the final stack is the initial stack minus its top two
values. -/
theorem c10_binops_pop_before_error (b : Builtin)
    (hb : b ∈ ([.add, .sub, .mul, .div, .eq, .lt, .le, .gt, .ge] : List Builtin))
    (st : Interp) (e : String) (st' : Interp)
    (hlen : 2 ≤ st.stack.length)
    (h : evalBuiltin b st = .err e st') :
    st'.stack = st.stack.drop 2 := by
  obtain ⟨x, y, m, hst⟩ : ∃ x y m, st.stack = x :: y :: m := by
    match hst : st.stack with
    | [] => rw [hst] at hlen; simp at hlen
    | [x] => rw [hst] at hlen; simp at hlen
    | x :: y :: m => exact ⟨x, y, m, rfl⟩
  obtain ⟨stk, sts, defs, out⟩ := st
  simp only at hst
  subst hst
  fin_cases hb
  · exact binOp_err_drops_operands "+" valueAdd x y m sts defs out e st' h
  · exact binOp_err_drops_operands "-" valueSub x y m sts defs out e st' h
  · exact binOp_err_drops_operands "*" valueMul x y m sts defs out e st' h
  · exact binOp_err_drops_operands "/" valueDiv x y m sts defs out e st' h
  · exact absurd h (fun h => eqOp_no_err x y m sts defs out e st' h)
  · exact absurd h (fun h => cmpOp_no_err "<" valueLtb x y m sts defs out e st' h)
  · exact absurd h (fun h => cmpOp_no_err "<=" valueLeb x y m sts defs out e st' h)
  · exact absurd h (fun h => cmpOp_no_err ">" valueGtb x y m sts defs out e st' h)
  · exact absurd h (fun h => cmpOp_no_err ">=" valueGeb x y m sts defs out e st' h)

/-! ## Round-trip infrastructure for claim C1. -/

mutual

theorem valueOf_exprOfValue : ∀ v, valueOfExpression (exprOfValue v) = v
  | .bool _ => rfl
  | .number _ => rfl
  | .string _ => rfl
  | .procedure _ => rfl
  | .list vs => congrArg Value.list (valueOf_exprOfValueList vs)

theorem valueOf_exprOfValueList :
    ∀ vs, valueOfExpressionList (exprOfValueList vs) = vs
  | [] => rfl
  | v :: vs => by
      rw [exprOfValueList, valueOfExpressionList, valueOf_exprOfValue v,
        valueOf_exprOfValueList vs]

end

mutual

theorem display_exprOfValue : ∀ v, displayExpression (exprOfValue v) = displayValue v
  | .bool _ => rfl
  | .number _ => rfl
  | .string _ => rfl
  | .procedure _ => rfl
  | .list vs => by
      rw [exprOfValue, displayExpression, displayValue, display_exprOfValueItems vs]
      cases vs <;> rfl

theorem display_exprOfValueItems :
    ∀ vs, displayExpressionItems (exprOfValueList vs) = displayValueItems vs
  | [] => rfl
  | v :: vs => by
      rw [exprOfValueList, displayExpressionItems, displayValueItems,
        display_exprOfValue v, display_exprOfValueItems vs]

end

mutual

theorem goodExpr_exprOfValue : ∀ v, goodValue v = true → goodExpr (exprOfValue v) = true
  | .bool _, _ => rfl
  | .number _, h => h
  | .string _, h => h
  | .procedure _, h => h
  | .list vs, h => goodExpr_exprOfValueList vs h

theorem goodExpr_exprOfValueList :
    ∀ vs, goodValueList vs = true → goodExprList (exprOfValueList vs) = true
  | [], _ => rfl
  | v :: vs, h => by
      rw [goodValueList, Bool.and_eq_true] at h
      rw [exprOfValueList, goodExprList, Bool.and_eq_true]
      exact ⟨goodExpr_exprOfValue v h.1, goodExpr_exprOfValueList vs h.2⟩

end

/-! ### takeWhile / tag / char basics -/

theorem takeWhile_append_all {f : Char → Bool} :
    ∀ {s rest : List Char}, (∀ c ∈ s, f c = true) → nextNot f rest →
      (s ++ rest).takeWhile f = s ∧ (s ++ rest).dropWhile f = rest := by
  intro s
  induction s with
  | nil =>
    intro rest _ hr
    cases rest with
    | nil => exact ⟨rfl, rfl⟩
    | cons c t => simp_all [nextNot, List.takeWhile_cons, List.dropWhile_cons]
  | cons c s ih =>
    intro rest hs hr
    have hc : f c = true := hs c (by simp)
    have := ih (fun d hd => hs d (by simp [hd])) hr
    simp [List.takeWhile_cons, List.dropWhile_cons, hc, this.1, this.2]

theorem takeWhile1_exact {f : Char → Bool} {s rest : List Char}
    (hne : s ≠ []) (hs : ∀ c ∈ s, f c = true) (hr : nextNot f rest) :
    takeWhile1 f (s ++ rest) = .ok rest s := by
  obtain ⟨h1, h2⟩ := takeWhile_append_all hs hr
  cases s with
  | nil => exact absurd rfl hne
  | cons c t =>
    have h1' : List.takeWhile f (c :: (t ++ rest)) = c :: t := by simpa using h1
    have h2' : List.dropWhile f (c :: (t ++ rest)) = rest := by simpa using h2
    simp [takeWhile1, h1', h2']

theorem takeWhile0_exact {f : Char → Bool} {s rest : List Char}
    (hs : ∀ c ∈ s, f c = true) (hr : nextNot f rest) :
    takeWhile0 f (s ++ rest) = .ok rest s := by
  obtain ⟨h1, h2⟩ := takeWhile_append_all hs hr
  simp [takeWhile0, h1, h2]

theorem takeWhile0_stop {f : Char → Bool} {rest : List Char}
    (hr : nextNot f rest) : takeWhile0 f rest = .ok rest [] :=
  takeWhile0_exact (s := []) (by simp) hr

theorem restOK_nextNot {f : Char → Bool} (hf : f ' ' = false) {rest : List Char}
    (h : restOK rest) : nextNot f rest := by
  rcases h with rfl | ⟨tl, rfl⟩
  · trivial
  · exact hf

theorem listPrefix_append_self : ∀ (t rest : List Char), listPrefix t (t ++ rest) = true := by
  intro t rest
  induction t with
  | nil => rfl
  | cons c t ih => simp [listPrefix, ih]

theorem ptag_exact (t rest : List Char) : ptag t (t ++ rest) = .ok rest t := by
  simp [ptag, listPrefix_append_self, List.drop_left]

theorem not_listPrefix_append {t w rest : List Char}
    (hw : listPrefix t w = false) (hsp : ∀ c ∈ t, c ≠ ' ')
    (hrest : restOK rest) : listPrefix t (w ++ rest) = false := by
  induction t generalizing w with
  | nil => simp [listPrefix] at hw
  | cons c t ih =>
    cases w with
    | nil =>
      rcases hrest with rfl | ⟨tl, rfl⟩
      · rfl
      · have : (c == ' ') = false := by
          simp
          exact hsp c (by simp)
        simp [listPrefix, this]
    | cons d w =>
      by_cases hcd : c = d
      · subst hcd
        have hw' : listPrefix t w = false := by
          simpa [listPrefix] using hw
        simp [listPrefix, ih hw' (fun x hx => hsp x (by simp [hx]))]
      · have hne : (c == d) = false := by simp [hcd]
        simp [listPrefix, hne]

theorem ptag_err_boundary {t w rest : List Char}
    (hw : listPrefix t w = false) (hsp : ∀ c ∈ t, c ≠ ' ')
    (hrest : restOK rest) : ptag t (w ++ rest) = .err := by
  simp [ptag, not_listPrefix_append hw hsp hrest]

theorem pchar_ok (c : Char) (rest : List Char) : pchar c (c :: rest) = .ok rest c := by
  simp [pchar]

theorem pchar_ne {c d : Char} (h : d ≠ c) (rest : List Char) :
    pchar c (d :: rest) = .err := by
  simp [pchar, h]

theorem precognize_of {p : Parser α} {w rest : List Char} {x : α}
    (h : p (w ++ rest) = .ok rest x) :
    precognize p (w ++ rest) = .ok rest w := by
  have hl : (w ++ rest).length - rest.length = w.length := by
    simp [List.length_append]
  simp [precognize, h, hl, List.take_left]

/-! ### decimal digits -/

theorem natOfDigits_append_singleton (xs : List Char) (c : Char) :
    natOfDigits (xs ++ [c]) = natOfDigits xs * 10 + (c.toNat - '0'.toNat) := by
  simp [natOfDigits, List.foldl_append]

theorem digitChar_spec {m : Nat} (h : m < 10) :
    (Nat.digitChar m).isDigit = true ∧ Nat.digitChar m ≠ ' ' ∧
      (Nat.digitChar m).toNat - '0'.toNat = m := by
  interval_cases m <;> exact ⟨rfl, by decide, rfl⟩

theorem natDigitsAux_spec :
    ∀ (fuel n : Nat), n < 10 ^ fuel → 0 < fuel →
      natDigitsAux fuel n ≠ [] ∧
      (∀ c ∈ natDigitsAux fuel n, c.isDigit = true) ∧
      natOfDigits (natDigitsAux fuel n) = n := by
  intro fuel
  induction fuel with
  | zero => intro n _ h; omega
  | succ f ih =>
    intro n hn _
    by_cases h10 : n < 10
    · refine ⟨by simp [natDigitsAux, h10], ?_, ?_⟩
      · intro c hc
        simp [natDigitsAux, h10] at hc
        subst hc
        exact (digitChar_spec h10).1
      · simp [natDigitsAux, h10, natOfDigits]
        exact (digitChar_spec h10).2.2
    · have hf : 0 < f := by
        rcases Nat.eq_zero_or_pos f with rfl | h
        · simp at hn; omega
        · exact h
      have hdiv : n / 10 < 10 ^ f := by
        rw [Nat.div_lt_iff_lt_mul (by norm_num)]
        calc n < 10 ^ (f + 1) := hn
        _ = 10 ^ f * 10 := by ring
      obtain ⟨hne, hdig, hval⟩ := ih (n / 10) hdiv hf
      refine ⟨by simp [natDigitsAux, h10], ?_, ?_⟩
      · intro c hc
        simp [natDigitsAux, h10] at hc
        rcases hc with hc | hc
        · exact hdig c hc
        · subst hc
          exact (digitChar_spec (Nat.mod_lt n (by norm_num))).1
      · rw [natDigitsAux, if_neg h10, natOfDigits_append_singleton, hval,
          (digitChar_spec (Nat.mod_lt n (by norm_num))).2.2]
        omega

theorem natDigits_spec (n : Nat) :
    natDigits n ≠ [] ∧ (∀ c ∈ natDigits n, c.isDigit = true) ∧
      natOfDigits (natDigits n) = n := by
  have h : n < 10 ^ (n + 1) :=
    lt_of_lt_of_le (Nat.lt_pow_self (by norm_num) n)
      (Nat.pow_le_pow_right (by norm_num) (Nat.le_succ n))
  exact natDigitsAux_spec (n + 1) n h (Nat.succ_pos n)

/-! ### integral rationals -/

theorem ratI_num (n : Int) : (ratI n).num = n := rfl

theorem ratI_den (n : Int) : (ratI n).den = 1 := rfl

theorem divInt_one_eq_ratI (n : Int) : Rat.divInt n 1 = ratI n := by
  rw [show ratI n = Rat.divInt (ratI n).num ((ratI n).den : Int) from
    (Rat.divInt_self (ratI n)).symm]
  rfl

theorem intLike_eq {q : Rat} (h : intLike q = true) :
    q = ratI q.num ∧ q.num.natAbs ≤ 2 ^ 24 := by
  rw [intLike, Bool.and_eq_true, beq_iff_eq, decide_eq_true_eq] at h
  refine ⟨?_, h.2⟩
  have h1 := Rat.divInt_self q
  rw [h.1, Nat.cast_one] at h1
  exact ((divInt_one_eq_ratI q.num).symm.trans h1).symm

/-! ### dispatch lemmas: which rule errs on which leading character -/

theorem definitionP_err_of_tag {i : List Char}
    (h : ptag "def".data i = .err) : ∀ f, definitionP f i = .err := by
  intro f
  cases f with
  | zero => rfl
  | succ f => simp [definitionP, pmap, preceded, pseq, pcut, h]

theorem procedureP_err_ne (c : Char) (h : c ≠ '\x7b') (t : List Char) :
    ∀ f, procedureP f (c :: t) = .err := by
  intro f
  cases f with
  | zero => rfl
  | succ f =>
    simp [procedureP, delimited, terminated, preceded, pseq, pmap, pcut,
      pchar_ne h]

theorem listP_err_ne (c : Char) (h : c ≠ '[') (t : List Char) :
    ∀ f, listP f (c :: t) = .err := by
  intro f
  cases f with
  | zero => rfl
  | succ f =>
    simp [listP, delimited, terminated, preceded, pseq, pmap, pchar_ne h]

theorem expressionP_err_rsqb (t : List Char) : ∀ f, expressionP f (']' :: t) = .err := by
  intro f
  cases f with
  | zero => rfl
  | succ f =>
    simp [expressionP, palt, pmap, show literalP (']' :: t) = .err from rfl,
      procedureP_err_ne ']' (by decide) t, listP_err_ne ']' (by decide) t]

theorem expressionP_err_rbrace (t : List Char) :
    ∀ f, expressionP f ('\x7d' :: t) = .err := by
  intro f
  cases f with
  | zero => rfl
  | succ f =>
    simp [expressionP, palt, pmap, show literalP ('\x7d' :: t) = .err from rfl,
      procedureP_err_ne '\x7d' (by decide) t, listP_err_ne '\x7d' (by decide) t]

theorem statementP_err_rbrace (t : List Char) :
    ∀ f, statementP f ('\x7d' :: t) = .err := by
  intro f
  cases f with
  | zero => rfl
  | succ f =>
    simp [statementP, palt, pmap, definitionP_err_of_tag (i := '\x7d' :: t) rfl,
      show builtinP ('\x7d' :: t) = .err from rfl,
      show identifierP ('\x7d' :: t) = .err from rfl,
      expressionP_err_rbrace t]

/-! ### literal tokens -/

theorem literalP_bool (b : Bool) (rest : List Char) :
    literalP ((if b then "true".data else "false".data) ++ rest) =
      .ok rest (.bool b) := by
  cases b <;> rfl

/-- A digit character differs from any concrete non-digit character. -/
theorem ne_of_isDigit {c : Char} (h : c.isDigit = true) {d : Char}
    (hd : d.isDigit = false) : c ≠ d := by
  intro he
  rw [he] at h
  rw [h] at hd
  cases hd

theorem intCast_eq_ratI (m : Int) : (m : ℚ) = ratI m := by
  rw [← divInt_one_eq_ratI]
  exact (Rat.divInt_one m).symm

theorem floatP_natDigits (n : Nat) {rest : List Char} (hrest : restOK rest) :
    floatP (natDigits n ++ rest) = .ok rest (ratI n) := by
  obtain ⟨hne, hdig, hval⟩ := natDigits_spec n
  obtain ⟨d, dsl, hds⟩ : ∃ d dsl, natDigits n = d :: dsl := by
    cases h : natDigits n with
    | nil => exact absurd h hne
    | cons d dsl => exact ⟨d, dsl, rfl⟩
  have hd : d.isDigit = true := hdig d (by rw [hds]; simp)
  have hdp : d ≠ '+' := ne_of_isDigit hd (show Char.isDigit '+' = false from by decide)
  have hdm : d ≠ '-' := ne_of_isDigit hd (show Char.isDigit '-' = false from by decide)
  have hsign : popt (palt (pchar '+') (pchar '-')) (natDigits n ++ rest) =
      .ok (natDigits n ++ rest) none := by
    rw [hds]
    simp [popt, palt, pchar_ne hdp (dsl ++ rest), pchar_ne hdm (dsl ++ rest)]
  have hdigit1 : digit1 (natDigits n ++ rest) = .ok rest (natDigits n) :=
    takeWhile1_exact hne hdig (restOK_nextNot (by decide) hrest)
  have hnodot : popt (pseq (pchar '.') (popt digit1)) rest = .ok rest none := by
    rcases hrest with rfl | ⟨tl, rfl⟩
    · rfl
    · simp [popt, pseq, pchar_ne (show (' ' : Char) ≠ '.' from by decide) tl]
  have hnoexp :
      popt (pseq (palt (pchar 'e') (pchar 'E'))
        (pseq (popt (palt (pchar '+') (pchar '-'))) (pcut digit1))) rest =
        .ok rest none := by
    rcases hrest with rfl | ⟨tl, rfl⟩
    · rfl
    · simp [popt, pseq, palt, pchar_ne (show (' ' : Char) ≠ 'e' from by decide) tl,
        pchar_ne (show (' ' : Char) ≠ 'E' from by decide) tl]
  have hrec : recognizeFloat (natDigits n ++ rest) = .ok rest (natDigits n) := by
    rw [recognizeFloat]
    exact precognize_of (x := (none, ((), none)))
      (by simp [pseq, palt, pvalue, pmap, hsign, hdigit1, hnodot, hnoexp])
  have hh : (natDigits n).head? = some d := by rw [hds]; rfl
  have htake : (natDigits n).takeWhile Char.isDigit = natDigits n := by
    have := takeWhile_append_all hdig (show nextNot Char.isDigit [] from trivial)
    simpa using this.1
  have hdrop : (natDigits n).dropWhile Char.isDigit = [] := by
    have := takeWhile_append_all hdig (show nextNot Char.isDigit [] from trivial)
    simpa using this.2
  have hnonempty : (natDigits n).isEmpty = false := by rw [hds]; rfl
  have hconv : charsToRat (natDigits n) = some (ratI n) := by
    rw [charsToRat]
    simp [hh, hdm, hdp, htake, hdrop, hnonempty, hval,
      show natOfDigits [] = 0 from rfl, divInt_one_eq_ratI, intCast_eq_ratI]
    rw [← intCast_eq_ratI]
    push_cast
    ring
  simp only [floatP, recognizeFloatOrExceptions, palt, hrec, hconv]

theorem floatP_negDigits (n : Nat) {rest : List Char} (hrest : restOK rest) :
    floatP ('-' :: (natDigits n ++ rest)) = .ok rest (ratI (-(n : Int))) := by
  obtain ⟨hne, hdig, hval⟩ := natDigits_spec n
  have hsign : popt (palt (pchar '+') (pchar '-')) ('-' :: (natDigits n ++ rest)) =
      .ok (natDigits n ++ rest) (some '-') := by
    simp [popt, palt, pchar_ne (show ('-' : Char) ≠ '+' from by decide), pchar_ok]
  have hdigit1 : digit1 (natDigits n ++ rest) = .ok rest (natDigits n) :=
    takeWhile1_exact hne hdig (restOK_nextNot (by decide) hrest)
  have hnodot : popt (pseq (pchar '.') (popt digit1)) rest = .ok rest none := by
    rcases hrest with rfl | ⟨tl, rfl⟩
    · rfl
    · simp [popt, pseq, pchar_ne (show (' ' : Char) ≠ '.' from by decide) tl]
  have hnoexp :
      popt (pseq (palt (pchar 'e') (pchar 'E'))
        (pseq (popt (palt (pchar '+') (pchar '-'))) (pcut digit1))) rest =
        .ok rest none := by
    rcases hrest with rfl | ⟨tl, rfl⟩
    · rfl
    · simp [popt, pseq, palt, pchar_ne (show (' ' : Char) ≠ 'e' from by decide) tl,
        pchar_ne (show (' ' : Char) ≠ 'E' from by decide) tl]
  have hrec : recognizeFloat ('-' :: (natDigits n ++ rest)) =
      .ok rest ('-' :: natDigits n) := by
    rw [recognizeFloat]
    exact precognize_of (w := '-' :: natDigits n) (x := (some '-', ((), none)))
      (by simp [pseq, palt, pvalue, pmap, hsign, hdigit1, hnodot, hnoexp])
  have htake : (natDigits n).takeWhile Char.isDigit = natDigits n := by
    have := takeWhile_append_all hdig (show nextNot Char.isDigit [] from trivial)
    simpa using this.1
  have hdrop : (natDigits n).dropWhile Char.isDigit = [] := by
    have := takeWhile_append_all hdig (show nextNot Char.isDigit [] from trivial)
    simpa using this.2
  have hnonempty : (natDigits n).isEmpty = false := by
    cases h : natDigits n with
    | nil => exact absurd h hne
    | cons d dsl => rfl
  have hconv : charsToRat ('-' :: natDigits n) = some (ratI (-(n : Int))) := by
    rw [charsToRat]
    simp [htake, hdrop, hnonempty, hval,
      show natOfDigits [] = 0 from rfl, divInt_one_eq_ratI, intCast_eq_ratI]
    rw [← intCast_eq_ratI]
    push_cast
    ring
  simp only [floatP, recognizeFloatOrExceptions, palt, hrec, hconv]

theorem displayNumber_intLike {q : Rat} (hq : intLike q = true) :
    displayNumber q = (if q.num < 0 then ['-'] else []) ++ natDigits q.num.natAbs := by
  have hden : q.den = 1 := by
    rw [intLike, Bool.and_eq_true, beq_iff_eq] at hq
    exact hq.1
  simp [displayNumber, hden, Nat.div_one, Nat.mod_one]

theorem literalP_number {q : Rat} {rest : List Char} (hq : intLike q = true)
    (hrest : restOK rest) :
    literalP (displayNumber q ++ rest) = .ok rest (.number q) := by
  obtain ⟨hrepr, _⟩ := intLike_eq hq
  rw [displayNumber_intLike hq]
  by_cases hneg : q.num < 0
  · have habs : -((q.num.natAbs : Int)) = q.num := by omega
    have hfl := floatP_negDigits q.num.natAbs hrest
    rw [habs, ← hrepr] at hfl
    simp [literalP, palt, pmap, hneg, hfl]
  · have habs : ((q.num.natAbs : Int)) = q.num := by omega
    have hfl := floatP_natDigits q.num.natAbs hrest
    rw [habs, ← hrepr] at hfl
    simp [literalP, palt, pmap, hneg, hfl]

theorem plainChar_spec {c : Char} (h : plainChar c = true) :
    0x20 ≤ c.toNat ∧ c.toNat ≤ 0x7e ∧ c ≠ '"' ∧ c ≠ '\\' := by
  rw [plainChar, Bool.and_eq_true, Bool.and_eq_true, Bool.and_eq_true] at h
  obtain ⟨⟨⟨h1, h2⟩, h3⟩, h4⟩ := h
  refine ⟨by simpa using h1, by simpa using h2, ?_, ?_⟩
  · simpa using h3
  · simpa using h4

theorem escDebugChar_plain {c : Char} (h : plainChar c = true) :
    escDebugChar c = [c] := by
  obtain ⟨h1, h2, h3, h4⟩ := plainChar_spec h
  have hn : c ≠ '\n' := fun he => by subst he; exact absurd h1 (by decide)
  have ht : c ≠ '\t' := fun he => by subst he; exact absurd h1 (by decide)
  have hr : c ≠ '\r' := fun he => by subst he; exact absurd h1 (by decide)
  rw [escDebugChar, if_neg h3, if_neg h4, if_neg hn, if_neg ht, if_neg hr,
    if_neg (by omega)]

theorem flatMap_escDebugChar {l : List Char} (h : ∀ c ∈ l, plainChar c = true) :
    l.flatMap escDebugChar = l := by
  induction l with
  | nil => rfl
  | cons c t ih =>
    rw [List.flatMap_cons, escDebugChar_plain (h c (by simp)),
      ih (fun d hd => h d (by simp [hd]))]
    rfl

theorem literalP_string {s : String} {rest : List Char} (hs : goodStr s = true)
    (hrest : restOK rest) :
    literalP (debugStr s ++ rest) = .ok rest (.string s) := by
  rw [goodStr, Bool.and_eq_true] at hs
  obtain ⟨hne, hall⟩ := hs
  have hall' : ∀ c ∈ s.data, plainChar c = true := by
    rw [List.all_eq_true] at hall
    exact fun c hc => hall c hc
  have hflat : s.data.flatMap escDebugChar = s.data := flatMap_escDebugChar hall'
  have hpred : ∀ c ∈ s.data, (!(List.contains ['\\', '"'] c)) = true := by
    intro c hc
    obtain ⟨_, _, h3, h4⟩ := plainChar_spec (hall' c hc)
    have e1 : ('\\' == c) = false := by
      simp
      exact fun he => h4 he.symm
    have e2 : ('"' == c) = false := by
      simp
      exact fun he => h3 he.symm
    simp [List.contains, e1, e2]
    exact ⟨h4, h3⟩
  have hsne : s.data ≠ [] := by
    intro he
    rw [he] at hne
    cases hne
  have hisnot : pisNot ['\\', '"'] (s.data ++ '"' :: rest) = .ok ('"' :: rest) s.data :=
    takeWhile1_exact hsne hpred (by exact rfl)
  have hshape : debugStr s ++ rest = '"' :: (s.data ++ '"' :: rest) := by
    rw [debugStr, hflat]
    simp
  rw [hshape]
  have hstr : stringP ('"' :: (s.data ++ '"' :: rest)) = .ok rest s.data := by
    simp [stringP, delimited, terminated, preceded, pseq, pmap, pcut, pchar_ok,
      hisnot]
  have hfl : floatP ('"' :: (s.data ++ '"' :: rest)) = .err := rfl
  simp [literalP, palt, pmap, hfl, hstr]

/-- Witness for C10: `+` applied to two Bools pops both and errors. -/
theorem c10_binops_pop_before_error_witness :
    ({ Interp.new with stack := [.number (ratI 9)] } : Interp).stack =
      ({ Interp.new with
        stack := [.bool false, .bool true, .number (ratI 9)] } : Interp).stack.drop 2 :=
  c10_binops_pop_before_error .add (by decide)
    { Interp.new with stack := [.bool false, .bool true, .number (ratI 9)] }
    ("Can\x27t add " ++ vstr (.bool true) ++ " and " ++ vstr (.bool false))
    { Interp.new with stack := [.number (ratI 9)] }
    (by decide) rfl

/-! ### combinator composition lemmas -/

theorem pmap_ok {p : Parser α} {f : α → β} {i r : List Char} {a : α}
    (hp : p i = .ok r a) : pmap f p i = .ok r (f a) := by
  simp [pmap, hp]

theorem pvalue_ok {p : Parser α} {v : β} {i r : List Char} {a : α}
    (hp : p i = .ok r a) : pvalue v p i = .ok r v := by
  simp [pvalue, pmap, hp]

theorem pseq_ok {p : Parser α} {q : Parser β} {i i1 i2 : List Char}
    {a : α} {b : β} (hp : p i = .ok i1 a) (hq : q i1 = .ok i2 b) :
    pseq p q i = .ok i2 (a, b) := by
  simp [pseq, hp, hq]

theorem preceded_ok {p : Parser α} {q : Parser β} {i i1 i2 : List Char}
    {a : α} {b : β} (hp : p i = .ok i1 a) (hq : q i1 = .ok i2 b) :
    preceded p q i = .ok i2 b := by
  simp [preceded, pmap, pseq, hp, hq]

theorem terminated_ok {p : Parser α} {q : Parser β} {i i1 i2 : List Char}
    {a : α} {b : β} (hp : p i = .ok i1 a) (hq : q i1 = .ok i2 b) :
    terminated p q i = .ok i2 a := by
  simp [terminated, pmap, pseq, hp, hq]

theorem pcut_ok {p : Parser α} {i r : List Char} {a : α}
    (hp : p i = .ok r a) : pcut p i = .ok r a := by
  simp [pcut, hp]

theorem palt_first {p q : Parser α} {i r : List Char} {a : α}
    (hp : p i = .ok r a) : palt p q i = .ok r a := by
  simp [palt, hp]

theorem palt_second {p q : Parser α} {i : List Char}
    (hp : p i = .err) : palt p q i = q i := by
  simp [palt, hp]

theorem popt_of_ok {p : Parser α} {i r : List Char} {a : α}
    (hp : p i = .ok r a) : popt p i = .ok r (some a) := by
  simp [popt, hp]

theorem popt_of_err {p : Parser α} {i : List Char}
    (hp : p i = .err) : popt p i = .ok i none := by
  simp [popt, hp]

theorem delimited_ok {p : Parser α} {q : Parser β} {r : Parser γ}
    {i i1 i2 i3 : List Char} {a : α} {b : β} {c : γ}
    (hp : p i = .ok i1 a) (hq : q i1 = .ok i2 b) (hr : r i2 = .ok i3 c) :
    delimited p q r i = .ok i3 b := by
  simp [delimited, preceded, terminated, pmap, pseq, hp, hq, hr]

theorem sepGo_stop {α β : Type} {sep : Parser α} {item : Parser β}
    {i i1 : List Char} {a : α} {g : Nat}
    (hsep : sep i = .ok i1 a) (hlen : ¬i1.length = i.length)
    (hitem : item i1 = .err) :
    sepGo sep item (g + 1) i = .ok i [] := by
  simp [sepGo, hsep, hlen, hitem]

theorem sepGo_step {α β : Type} {sep : Parser α} {item : Parser β}
    {i i1 i2 r : List Char} {a : α} {b : β} {bs : List β} {g : Nat}
    (hsep : sep i = .ok i1 a) (hlen : ¬i1.length = i.length)
    (hitem : item i1 = .ok i2 b)
    (hrec : sepGo sep item g i2 = .ok r bs) :
    sepGo sep item (g + 1) i = .ok r (b :: bs) := by
  simp [sepGo, hsep, hlen, hitem, hrec]

theorem sepGo_nil {α β : Type} {sep : Parser α} {item : Parser β}
    {i : List Char} {g : Nat} (hsep : sep i = .err) :
    sepGo sep item (g + 1) i = .ok i [] := by
  simp [sepGo, hsep]

theorem sepList0_of_err {α β : Type} {sep : Parser α} {item : Parser β}
    {i : List Char} (hitem : item i = .err) :
    sepList0 sep item i = .ok i [] := by
  simp [sepList0, hitem]

theorem sepList0_of {α β : Type} {sep : Parser α} {item : Parser β}
    {i i1 r : List Char} {b : β} {bs : List β}
    (hitem : item i = .ok i1 b)
    (hgo : sepGo sep item (i1.length + 1) i1 = .ok r bs) :
    sepList0 sep item i = .ok r (b :: bs) := by
  simp [sepList0, hitem, hgo]

theorem sepList1_of {α β : Type} {sep : Parser α} {item : Parser β}
    {i i1 r : List Char} {b : β} {bs : List β}
    (hitem : item i = .ok i1 b)
    (hgo : sepGo sep item (i1.length + 1) i1 = .ok r bs) :
    sepList1 sep item i = .ok r (b :: bs) := by
  simp [sepList1, hitem, hgo]

/-! ### character classes -/

theorem ne_of_pred {p : Char → Bool} {c d : Char} (h : p c = true)
    (hd : p d = false) : c ≠ d := by
  intro he
  rw [he] at h
  rw [h] at hd
  cases hd

theorem isMultispace_false_iff {c : Char} :
    isMultispace c = false ↔ c ≠ ' ' ∧ c ≠ '\t' ∧ c ≠ '\r' ∧ c ≠ '\n' := by
  simp [isMultispace]

theorem isSpaceTab_false_of_ms {c : Char} (h : isMultispace c = false) :
    isSpaceTab c = false := by
  rw [isMultispace_false_iff] at h
  simp [isSpaceTab]
  exact ⟨h.1, h.2.1⟩

theorem isMultispace_false_of_alpha {c : Char} (h : c.isAlpha = true) :
    isMultispace c = false := by
  rw [isMultispace_false_iff]
  exact ⟨ne_of_pred h (by decide), ne_of_pred h (by decide),
    ne_of_pred h (by decide), ne_of_pred h (by decide)⟩

theorem isMultispace_false_of_digit {c : Char} (h : c.isDigit = true) :
    isMultispace c = false := by
  rw [isMultispace_false_iff]
  exact ⟨ne_of_pred h (by decide), ne_of_pred h (by decide),
    ne_of_pred h (by decide), ne_of_pred h (by decide)⟩

/-! ### heads of renderings -/

theorem displayNumber_head (q : Rat) :
    ∃ c t, displayNumber q = c :: t ∧ isMultispace c = false := by
  obtain ⟨hne, hdig, _⟩ := natDigits_spec (q.num.natAbs / q.den)
  obtain ⟨d, dsl, hds⟩ : ∃ d dsl, natDigits (q.num.natAbs / q.den) = d :: dsl := by
    cases h : natDigits (q.num.natAbs / q.den) with
    | nil => exact absurd h hne
    | cons d dsl => exact ⟨d, dsl, rfl⟩
  by_cases hneg : q.num < 0
  · refine ⟨'-', natDigits (q.num.natAbs / q.den) ++
      (if q.num.natAbs % q.den = 0 then []
       else '.' :: fracDigits 1200 (q.num.natAbs % q.den) q.den), ?_, by decide⟩
    simp [displayNumber, hneg]
  · refine ⟨d, dsl ++
      (if q.num.natAbs % q.den = 0 then []
       else '.' :: fracDigits 1200 (q.num.natAbs % q.den) q.den), ?_,
      isMultispace_false_of_digit (hdig d (by rw [hds]; simp))⟩
    simp [displayNumber, hneg, hds]

theorem displayExpression_head {e : Expression} (h : goodExpr e = true) :
    ∃ c t, displayExpression e = c :: t ∧ isMultispace c = false := by
  match e with
  | .literal (.bool b) =>
    cases b
    · exact ⟨'f', _, rfl, by decide⟩
    · exact ⟨'t', _, rfl, by decide⟩
  | .literal (.number q) =>
    obtain ⟨c, t, hct, hc⟩ := displayNumber_head q
    exact ⟨c, t, hct, hc⟩
  | .literal (.string s) => exact ⟨'"', _, rfl, by decide⟩
  | .procedure (.mk ss) => exact ⟨'\x7b', _, rfl, by decide⟩
  | .list es => exact ⟨'[', _, rfl, by decide⟩

theorem identShape_head {w : List Char} (h : identShape w = true) :
    ∃ c cs, w = c :: cs ∧ isMultispace c = false := by
  cases w with
  | nil => rw [identShape] at h; cases h
  | cons c cs =>
    rw [identShape, Bool.and_eq_true, Bool.or_eq_true] at h
    refine ⟨c, cs, rfl, ?_⟩
    rcases h.1 with hc | hc
    · exact isMultispace_false_of_alpha hc
    · rw [beq_iff_eq] at hc
      subst hc
      decide

theorem displayStatement_head {s : Statement} (h : goodStmt s = true) :
    ∃ c t, displayStatement s = c :: t ∧ isMultispace c = false := by
  match s with
  | .expression e =>
    have he : goodExpr e = true := by
      match e with
      | .literal (.bool b) => exact absurd h (by simp [goodStmt])
      | .literal (.number q) =>
        simp [goodStmt] at h
        simp [goodExpr, h.1]
      | .literal (.string s) => simpa [goodStmt, goodExpr] using h
      | .procedure p => simpa [goodStmt, goodExpr] using h
      | .list es => simpa [goodStmt, goodExpr] using h
    obtain ⟨c, t, hct, hc⟩ := displayExpression_head he
    exact ⟨c, t, hct, hc⟩
  | .builtin b => cases b <;> exact ⟨_, _, rfl, by decide⟩
  | .value v => exact absurd h (by simp [goodStmt])
  | .definition id p => exact ⟨'d', _, rfl, by decide⟩
  | .word w =>
    have hw : goodWord w = true := by simpa [goodStmt] using h
    rw [goodWord, Bool.and_eq_true, Bool.and_eq_true] at hw
    obtain ⟨c, cs, hccs, hc⟩ := identShape_head hw.1.1
    exact ⟨c, cs, by rw [show displayStatement (.word w) = w.data from rfl, hccs],
      hc⟩

/-! ### rendering lengths bound item counts -/

theorem length_le_displayExpressionItems :
    ∀ es : List Expression, es.length ≤ (displayExpressionItems es).length := by
  intro es
  induction es with
  | nil => simp [displayExpressionItems]
  | cons e es ih =>
    simp only [displayExpressionItems, List.length_cons, List.length_append]
    omega

theorem length_le_displayStatementItems :
    ∀ ss : List Statement, ss.length ≤ (displayStatementItems ss).length := by
  intro ss
  induction ss with
  | nil => simp [displayStatementItems]
  | cons s ss ih =>
    simp only [displayStatementItems, List.length_cons, List.length_append]
    omega

/-! ### weights are positive -/

theorem one_le_wExpr (e : Expression) : 1 ≤ wExpr e := by
  cases e <;> simp only [wExpr] <;> omega

theorem one_le_wExprList (es : List Expression) : 1 ≤ wExprList es := by
  cases es with
  | nil => simp [wExprList]
  | cons e es =>
    have := one_le_wExpr e
    simp only [wExprList]
    omega

theorem one_le_wStmt (s : Statement) : 1 ≤ wStmt s := by
  cases s <;> simp only [wStmt] <;> omega

theorem one_le_wStmtList (ss : List Statement) : 1 ≤ wStmtList ss := by
  cases ss with
  | nil => simp [wStmtList]
  | cons s ss =>
    have := one_le_wStmt s
    simp only [wStmtList]
    omega

/-! ### the identifier rule consumes exactly an identifier-shaped word -/

theorem isAlpha_false_of_isDigit {c : Char} (h : c.isDigit = true) :
    c.isAlpha = false := by
  simp [Char.isDigit, Char.isAlpha, Char.isUpper, Char.isLower, Char.le_def,
    UInt32.le_def, UInt32.lt_def, BitVec.le_def, BitVec.lt_def] at h ⊢
  omega

theorem identTail_decomp {cs : List Char} (h : identTail cs = true) :
    ∃ mid opt, cs = mid ++ opt ∧ (∀ c ∈ mid, c.isAlphanum = true) ∧
      (opt = [] ∨ opt = ['?']) := by
  induction cs with
  | nil => exact ⟨[], [], rfl, by simp, Or.inl rfl⟩
  | cons c cs ih =>
    rw [identTail] at h
    by_cases hc : c = '?'
    · rw [if_pos hc] at h
      have hnil : cs = [] := by simpa using h
      subst hnil
      subst hc
      exact ⟨[], ['?'], rfl, by simp, Or.inr rfl⟩
    · rw [if_neg hc, Bool.and_eq_true] at h
      obtain ⟨mid, opt, heq, hmid, hopt⟩ := ih h.2
      refine ⟨c :: mid, opt, by rw [heq]; rfl, ?_, hopt⟩
      intro d hd
      rcases List.mem_cons.mp hd with rfl | hd
      · exact h.1
      · exact hmid d hd

theorem alnum_alpha_split {mid : List Char}
    (h : ∀ c ∈ mid, c.isAlphanum = true) :
    ∃ al r1, mid = al ++ r1 ∧ (∀ c ∈ al, c.isAlpha = true) ∧
      (∀ c ∈ r1, c.isAlphanum = true) ∧
      (r1 = [] ∨ ∃ d t, r1 = d :: t ∧ d.isAlpha = false) := by
  induction mid with
  | nil => exact ⟨[], [], rfl, by simp, by simp, Or.inl rfl⟩
  | cons c cs ih =>
    by_cases hc : c.isAlpha = true
    · obtain ⟨al, r1, heq, hal, hr1, hcase⟩ :=
        ih (fun d hd => h d (by simp [hd]))
      refine ⟨c :: al, r1, by rw [heq]; rfl, ?_, hr1, hcase⟩
      intro d hd
      rcases List.mem_cons.mp hd with rfl | hd
      · exact hc
      · exact hal d hd
    · rw [Bool.not_eq_true] at hc
      exact ⟨[], c :: cs, rfl, by simp, h, Or.inr ⟨c, cs, rfl, hc⟩⟩

theorem identifierP_ok {w rest : List Char} (hw : identShape w = true)
    (hrest : restOK rest) : identifierP (w ++ rest) = .ok rest w := by
  cases w with
  | nil => rw [identShape] at hw; cases hw
  | cons c cs =>
    rw [identShape, Bool.and_eq_true, Bool.or_eq_true] at hw
    obtain ⟨hc, htail⟩ := hw
    obtain ⟨mid, opt, hcs, hmid, hopt⟩ := identTail_decomp htail
    have hq : ∃ y, popt (pchar '?') (opt ++ rest) = .ok rest y := by
      rcases hopt with rfl | rfl
      · rcases hrest with rfl | ⟨tl, rfl⟩
        · exact ⟨none, rfl⟩
        · exact ⟨none, popt_of_err (pchar_ne (by decide) tl)⟩
      · exact ⟨some '?', popt_of_ok (pchar_ok '?' rest)⟩
    obtain ⟨y, hq⟩ := hq
    have hnext2 : nextNot Char.isAlphanum (opt ++ rest) := by
      rcases hopt with rfl | rfl
      · exact restOK_nextNot (by decide) hrest
      · exact (by decide : Char.isAlphanum '?' = false)
    rcases hc with hca | hcu
    · obtain ⟨al, r1, hmid2, hal, hr1, hr1case⟩ := alnum_alpha_split hmid
      have hnext1 : nextNot Char.isAlpha (r1 ++ (opt ++ rest)) := by
        rcases hr1case with rfl | ⟨d, t, rfl, hd⟩
        · rcases hopt with rfl | rfl
          · exact restOK_nextNot (by decide) hrest
          · exact (by decide : Char.isAlpha '?' = false)
        · exact hd
      have h1 : alpha1 ((c :: al) ++ (r1 ++ (opt ++ rest))) =
          .ok (r1 ++ (opt ++ rest)) (c :: al) := by
        apply takeWhile1_exact (by simp) ?_ hnext1
        intro d hd
        rcases List.mem_cons.mp hd with rfl | hd
        · exact hca
        · exact hal d hd
      have h2 : alphanumeric0 (r1 ++ (opt ++ rest)) = .ok (opt ++ rest) r1 :=
        takeWhile0_exact hr1 hnext2
      have hseq : pseq (palt alpha1 (ptag ['_']))
          (pseq alphanumeric0 (popt (pchar '?'))) ((c :: cs) ++ rest) =
          .ok rest (c :: al, (r1, y)) := by
        have hshape : (c :: cs) ++ rest = (c :: al) ++ (r1 ++ (opt ++ rest)) := by
          rw [hcs, hmid2]
          simp
        rw [hshape]
        exact pseq_ok (palt_first h1) (pseq_ok h2 hq)
      exact precognize_of hseq
    · rw [beq_iff_eq] at hcu
      subst hcu
      have ha : alpha1 ('_' :: (mid ++ (opt ++ rest))) = .err := by
        simp [alpha1, takeWhile1, List.takeWhile_cons,
          (by decide : Char.isAlpha '_' = false)]
      have h1 : palt alpha1 (ptag ['_']) ('_' :: (mid ++ (opt ++ rest))) =
          .ok (mid ++ (opt ++ rest)) ['_'] := by
        rw [palt_second ha]
        exact ptag_exact ['_'] (mid ++ (opt ++ rest))
      have h2 : alphanumeric0 (mid ++ (opt ++ rest)) = .ok (opt ++ rest) mid :=
        takeWhile0_exact hmid hnext2
      have hseq : pseq (palt alpha1 (ptag ['_']))
          (pseq alphanumeric0 (popt (pchar '?'))) (('_' :: cs) ++ rest) =
          .ok rest (['_'], (mid, y)) := by
        have hshape : ('_' :: cs) ++ rest = '_' :: (mid ++ (opt ++ rest)) := by
          rw [hcs]
          simp
        rw [hshape]
        exact pseq_ok h1 (pseq_ok h2 hq)
      exact precognize_of hseq

/-! ### the builtin rule: exact tokens succeed, words and digit runs err -/

theorem listPrefix_false_of_nondigit : ∀ (t w : List Char),
    (∃ c ∈ t, c.isDigit = false) → (∀ c ∈ w, c.isDigit = true) →
    listPrefix t w = false := by
  intro t
  induction t with
  | nil => intro w h _; simp at h
  | cons a t' ih =>
    intro w hex hw
    cases w with
    | nil => rfl
    | cons c w' =>
      by_cases ha : a.isDigit = true
      · have hex' : ∃ x ∈ t', x.isDigit = false := by
          rcases hex with ⟨x, hx, hxd⟩
          rcases List.mem_cons.mp hx with rfl | hx
          · rw [ha] at hxd; cases hxd
          · exact ⟨x, hx, hxd⟩
        simp [listPrefix, ih w' hex' (fun d hd => hw d (by simp [hd]))]
      · rw [Bool.not_eq_true] at ha
        have hne : (a == c) = false := by
          simp
          exact (ne_of_pred (hw c (by simp)) ha).symm
        simp [listPrefix, hne]

theorem builtinTags_no_space : ∀ t ∈ builtinTags, ∀ c ∈ t, c ≠ ' ' := by decide

theorem builtinTags_nondigit : ∀ t ∈ builtinTags, ∃ c ∈ t, c.isDigit = false := by
  decide

theorem altFold_err (alts : List (Builtin × List Char)) {i : List Char}
    (h : ∀ p ∈ alts, listPrefix p.2 i = false) :
    altFold alts i = .err := by
  induction alts with
  | nil => rfl
  | cons p alts ih =>
    obtain ⟨b, t⟩ := p
    have ht : ptag t i = .err := by
      simp [ptag, h (b, t) (by simp)]
    rw [altFold, palt_second (by simp [pvalue, pmap, ht])]
    exact ih (fun q hq => h q (by simp [hq]))

theorem builtinP_err_word {w rest : List Char} (hw : noBuiltinPrefix w = true)
    (hrest : restOK rest) : builtinP (w ++ rest) = .err := by
  rw [builtinP]
  apply altFold_err
  intro p hp
  have hm : p.2 ∈ builtinTags := by
    rw [builtinTags]
    exact List.mem_map_of_mem _ hp
  rw [noBuiltinPrefix, List.all_eq_true] at hw
  have h1 : listPrefix p.2 w = false := by simpa using hw p.2 hm
  exact not_listPrefix_append h1 (builtinTags_no_space p.2 hm) hrest

theorem builtinP_err_digits {w rest : List Char}
    (hw : ∀ c ∈ w, c.isDigit = true) (hrest : restOK rest) :
    builtinP (w ++ rest) = .err := by
  rw [builtinP]
  apply altFold_err
  intro p hp
  have hm : p.2 ∈ builtinTags := by
    rw [builtinTags]
    exact List.mem_map_of_mem _ hp
  have h1 : listPrefix p.2 w = false :=
    listPrefix_false_of_nondigit p.2 w (builtinTags_nondigit p.2 hm) hw
  exact not_listPrefix_append h1 (builtinTags_no_space p.2 hm) hrest

theorem builtinP_token (b : Builtin) (hb : ¬b = Builtin.ifOp) {rest : List Char}
    (hrest : restOK rest) :
    builtinP ((builtinToStr b).data ++ rest) = .ok rest b := by
  rcases hrest with rfl | ⟨tl, rfl⟩ <;> cases b <;>
    first
      | rfl
      | exact absurd rfl hb

theorem identifierP_err_digit {w rest : List Char} (hne : w ≠ [])
    (hw : ∀ c ∈ w, c.isDigit = true) : identifierP (w ++ rest) = .err := by
  cases w with
  | nil => exact absurd rfl hne
  | cons c w' =>
    have hc := hw c (by simp)
    have h1 : Char.isAlpha c = false := isAlpha_false_of_isDigit hc
    have h2 : ('_' == c) = false := by
      simp
      exact (ne_of_pred hc (by decide)).symm
    simp [identifierP, precognize, pseq, palt, alpha1, takeWhile1,
      List.takeWhile_cons, h1, ptag, listPrefix, h2]

/-! ### literal-rule refusals on bracket heads -/

theorem literalP_err_lbrace (t : List Char) : literalP ('\x7b' :: t) = .err := rfl

theorem literalP_err_lsqb (t : List Char) : literalP ('[' :: t) = .err := rfl

/-! ### assembling the statement alternatives -/

theorem statementP_def_of {i r : List Char} {s : Statement} {f : Nat}
    (h : definitionP f i = .ok r s) : statementP (f + 1) i = .ok r s := by
  rw [statementP]
  exact palt_first h

theorem statementP_builtin_of {i r : List Char} {b : Builtin} {f : Nat}
    (hdef : definitionP f i = .err) (hb : builtinP i = .ok r b) :
    statementP (f + 1) i = .ok r (.builtin b) := by
  rw [statementP, palt_second hdef]
  exact palt_first (pmap_ok hb)

theorem statementP_word_of {i r w : List Char} {f : Nat}
    (hdef : definitionP f i = .err) (hb : builtinP i = .err)
    (hid : identifierP i = .ok r w) :
    statementP (f + 1) i = .ok r (.word (String.mk w)) := by
  rw [statementP, palt_second hdef, palt_second (by simp [pmap, hb])]
  exact palt_first (pmap_ok hid)

theorem statementP_expr_of {i r : List Char} {e : Expression} {f : Nat}
    (hdef : definitionP f i = .err) (hb : builtinP i = .err)
    (hid : identifierP i = .err) (he : expressionP f i = .ok r e) :
    statementP (f + 1) i = .ok r (.expression e) := by
  rw [statementP, palt_second hdef, palt_second (by simp [pmap, hb]),
    palt_second (by simp [pmap, hid])]
  exact pmap_ok he

theorem expressionP_lit_of {i r : List Char} {l : Literal} {f : Nat}
    (h : literalP i = .ok r l) : expressionP (f + 1) i = .ok r (.literal l) := by
  rw [expressionP]
  exact palt_first (pmap_ok h)

theorem expressionP_proc_of {i r : List Char} {p : Procedure} {f : Nat}
    (hlit : literalP i = .err) (hp : procedureP f i = .ok r p) :
    expressionP (f + 1) i = .ok r (.procedure p) := by
  rw [expressionP, palt_second (by simp [pmap, hlit])]
  exact palt_first (pmap_ok hp)

theorem expressionP_list_of {i r : List Char} {es : List Expression} {f : Nat}
    (hlit : literalP i = .err) (hp : procedureP f i = .err)
    (hl : listP f i = .ok r es) :
    expressionP (f + 1) i = .ok r (.list es) := by
  rw [expressionP, palt_second (by simp [pmap, hlit]),
    palt_second (by simp [pmap, hp])]
  exact pmap_ok hl

/-! ### the bundled round-trip induction

All six round-trip properties are proved together by strong induction on
the parse weight: every sub-parse invoked while reparsing a rendering has
strictly smaller weight. -/

theorem roundtrip_bundle (n : Nat) :
    (∀ e, wExpr e ≤ n → SEProp e) ∧
    (∀ es, wExprList es ≤ n → SItemsProp es) ∧
    (∀ es, wExprList es + 1 ≤ n → SListProp es) ∧
    (∀ p, wProc p ≤ n → SPProp p) ∧
    (∀ s, wStmt s ≤ n → SSProp s) ∧
    (∀ ss, wStmtList ss ≤ n → SLProp ss) := by
  induction n using Nat.strong_induction_on with
  | _ n ih =>
  have HE : ∀ e, wExpr e < n → SEProp e := fun e h => (ih _ h).1 e le_rfl
  have HItems : ∀ es, wExprList es < n → SItemsProp es :=
    fun es h => (ih _ h).2.1 es le_rfl
  have HList : ∀ es, wExprList es + 1 < n → SListProp es :=
    fun es h => (ih _ h).2.2.1 es le_rfl
  have HP : ∀ p, wProc p < n → SPProp p := fun p h => (ih _ h).2.2.2.1 p le_rfl
  have HS : ∀ s, wStmt s < n → SSProp s := fun s h => (ih _ h).2.2.2.2.1 s le_rfl
  have HL : ∀ ss, wStmtList ss < n → SLProp ss :=
    fun ss h => (ih _ h).2.2.2.2.2 ss le_rfl
  refine ⟨?_, ?_, ?_, ?_, ?_, ?_⟩
  -- SE: one expression
  · intro e hn
    intro f rest hf hg hrest
    cases e with
    | literal l =>
      obtain ⟨f1, rfl⟩ : ∃ f1, f = f1 + 1 := by
        simp only [wExpr] at hf
        cases f with
        | zero => omega
        | succ f1 => exact ⟨f1, rfl⟩
      cases l with
      | bool b => exact expressionP_lit_of (literalP_bool b rest)
      | number q =>
        have hq : intLike q = true := by simpa [goodExpr] using hg
        exact expressionP_lit_of (literalP_number hq hrest)
      | string st =>
        have hs : goodStr st = true := by simpa [goodExpr] using hg
        exact expressionP_lit_of (literalP_string hs hrest)
    | procedure p =>
      obtain ⟨ss⟩ := p
      simp only [wExpr] at hn hf
      obtain ⟨f1, rfl⟩ : ∃ f1, f = f1 + 1 := by
        cases f with
        | zero => omega
        | succ f1 => exact ⟨f1, rfl⟩
      have hg' : goodProc (.mk ss) = true := by simpa [goodExpr] using hg
      have hpp := HP (.mk ss) (by omega) f1 rest (by omega) hg'
      exact expressionP_proc_of (literalP_err_lbrace _) hpp
    | list es =>
      simp only [wExpr] at hn hf
      obtain ⟨f1, rfl⟩ : ∃ f1, f = f1 + 1 := by
        cases f with
        | zero => omega
        | succ f1 => exact ⟨f1, rfl⟩
      have hg' : goodExprList es = true := by simpa [goodExpr] using hg
      have hl := HList es (by omega) f1 rest (by omega) hg'
      exact expressionP_list_of (literalP_err_lsqb _)
        (procedureP_err_ne '[' (by decide) _ f1) hl
  -- SItems: the (multispace1 expression)* loop of a list body
  · intro es hn
    intro f gas rest hf hgas hg
    cases es with
    | nil =>
      obtain ⟨g, rfl⟩ : ∃ g, gas = g + 1 := by
        cases gas with
        | zero => omega
        | succ g => exact ⟨g, rfl⟩
      have hsep : multispace1 ([' '] ++ (']' :: rest)) = .ok (']' :: rest) [' '] :=
        takeWhile1_exact (by simp) (by decide)
          (show isMultispace ']' = false by decide)
      exact sepGo_stop hsep (by simp [displayExpressionItems]) (expressionP_err_rsqb rest f)
    | cons e es' =>
      obtain ⟨g, rfl⟩ : ∃ g, gas = g + 1 := by
        cases gas with
        | zero => omega
        | succ g => exact ⟨g, rfl⟩
      have hge : goodExpr e = true ∧ goodExprList es' = true := by
        simpa [goodExprList] using hg
      obtain ⟨c, t, hct, hcns⟩ := displayExpression_head hge.1
      have h1e := one_le_wExpr e
      have h1es := one_le_wExprList es'
      simp only [wExprList] at hn hf
      have hgas' : es'.length < g := by
        simp at hgas
        omega
      have hin : displayExpressionItems (e :: es') ++ ' ' :: ']' :: rest =
          ' ' :: (displayExpression e ++
            (displayExpressionItems es' ++ ' ' :: ']' :: rest)) := by
        simp [displayExpressionItems]
      rw [hin]
      have hnx : nextNot isMultispace (displayExpression e ++
          (displayExpressionItems es' ++ ' ' :: ']' :: rest)) := by
        rw [hct]
        exact hcns
      have hsep : multispace1 ([' '] ++ (displayExpression e ++
          (displayExpressionItems es' ++ ' ' :: ']' :: rest))) =
          .ok (displayExpression e ++
            (displayExpressionItems es' ++ ' ' :: ']' :: rest)) [' '] :=
        takeWhile1_exact (by simp) (by decide) hnx
      have hrest2 : restOK (displayExpressionItems es' ++ ' ' :: ']' :: rest) := by
        cases es' <;> exact Or.inr ⟨_, rfl⟩
      have hitem := HE e (by omega) f _ (by omega) hge.1 hrest2
      have hrec := HItems es' (by omega) f g rest (by omega) hgas' hge.2
      exact sepGo_step hsep (by simp) hitem hrec
  -- SList: a whole rendered list under the list rule
  · intro es hn
    intro f rest hf hg
    obtain ⟨f1, rfl, hf1⟩ : ∃ f1, f = f1 + 1 ∧ wExprList es ≤ f1 := by
      cases f with
      | zero => omega
      | succ f1 => exact ⟨f1, rfl, by omega⟩
    cases es with
    | nil =>
      have hms : multispace0 (']' :: rest) = .ok (']' :: rest) [] :=
        takeWhile0_stop (show isMultispace ']' = false by decide)
      have hsl : sepList0 multispace1 (expressionP f1) (']' :: rest) =
          .ok (']' :: rest) [] :=
        sepList0_of_err (expressionP_err_rsqb rest f1)
      rw [listP]
      exact delimited_ok (pchar_ok '[' (']' :: rest))
        (delimited_ok hms hsl hms) (pchar_ok ']' rest)
    | cons e es' =>
      have hge : goodExpr e = true ∧ goodExprList es' = true := by
        simpa [goodExprList] using hg
      obtain ⟨c, t, hct, hcns⟩ := displayExpression_head hge.1
      have h1e := one_le_wExpr e
      have h1es := one_le_wExprList es'
      simp only [wExprList] at hn hf1
      have hin : displayExpression (.list (e :: es')) ++ rest =
          '[' :: ' ' :: (displayExpression e ++
            (displayExpressionItems es' ++ ' ' :: ']' :: rest)) := by
        simp [displayExpression, displayExpressionItems]
      rw [listP, hin]
      have hnx : nextNot isMultispace (displayExpression e ++
          (displayExpressionItems es' ++ ' ' :: ']' :: rest)) := by
        rw [hct]
        exact hcns
      have hms1 : multispace0 ([' '] ++ (displayExpression e ++
          (displayExpressionItems es' ++ ' ' :: ']' :: rest))) =
          .ok (displayExpression e ++
            (displayExpressionItems es' ++ ' ' :: ']' :: rest)) [' '] :=
        takeWhile0_exact (by decide) hnx
      have hrest2 : restOK (displayExpressionItems es' ++ ' ' :: ']' :: rest) := by
        cases es' <;> exact Or.inr ⟨_, rfl⟩
      have hitem := HE e (by omega) f1 _ (by omega) hge.1 hrest2
      have hlenb := length_le_displayExpressionItems es'
      have hrec := HItems es' (by omega) f1
        ((displayExpressionItems es' ++ ' ' :: ']' :: rest).length + 1) rest
        (by omega)
        (by
          simp only [List.length_append, List.length_cons]
          omega)
        hge.2
      have hsl : sepList0 multispace1 (expressionP f1)
          (displayExpression e ++
            (displayExpressionItems es' ++ ' ' :: ']' :: rest)) =
          .ok (' ' :: ']' :: rest) (e :: es') :=
        sepList0_of hitem hrec
      have hms2 : multispace0 ([' '] ++ (']' :: rest)) = .ok (']' :: rest) [' '] :=
        takeWhile0_exact (by decide) (show isMultispace ']' = false by decide)
      exact delimited_ok (pchar_ok '[' _) (delimited_ok hms1 hsl hms2)
        (pchar_ok ']' rest)
  -- SP: a whole rendered procedure under the procedure rule
  · intro p hn
    intro f rest hf hg
    obtain ⟨ss⟩ := p
    simp only [wProc] at hn hf
    obtain ⟨f1, rfl, hf1⟩ : ∃ f1, f = f1 + 1 ∧ wStmtList ss + 2 ≤ f1 := by
      cases f with
      | zero => omega
      | succ f1 => exact ⟨f1, rfl, by omega⟩
    obtain ⟨f2, rfl, hf2⟩ : ∃ f2, f1 = f2 + 1 ∧ wStmtList ss + 1 ≤ f2 := by
      cases f1 with
      | zero => omega
      | succ f2 => exact ⟨f2, rfl, by omega⟩
    obtain ⟨f3, rfl, hf3⟩ : ∃ f3, f2 = f3 + 1 ∧ wStmtList ss ≤ f3 := by
      cases f2 with
      | zero => omega
      | succ f3 => exact ⟨f3, rfl, by omega⟩
    have hgs : goodStmtList ss = true := by simpa [goodProc] using hg
    have hcom : popt eolComment ('\x7d' :: rest) = .ok ('\x7d' :: rest) none :=
      popt_of_err (by
        simp [eolComment, preceded, pseq, pmap,
          pchar_ne (show ('\x7d' : Char) ≠ '#' by decide)])
    have hsp0 : space0 ('\x7d' :: rest) = .ok ('\x7d' :: rest) [] :=
      takeWhile0_stop (show isSpaceTab '\x7d' = false by decide)
    have hms0r : multispace0 ('\x7d' :: rest) = .ok ('\x7d' :: rest) [] :=
      takeWhile0_stop (show isMultispace '\x7d' = false by decide)
    have hms1e : multispace1 ('\x7d' :: rest) = .err := by
      simp [multispace1, takeWhile1, List.takeWhile_cons,
        (show isMultispace '\x7d' = false by decide)]
    cases ss with
    | nil =>
      have hline : lineP (f3 + 1) ('\x7d' :: rest) = .ok ('\x7d' :: rest) [] := by
        rw [lineP]
        exact terminated_ok (sepList0_of_err (statementP_err_rbrace rest f3))
          (pseq_ok hsp0 hcom)
      have hgo : sepGo multispace1 (lineP (f3 + 1))
          (('\x7d' :: rest).length + 1) ('\x7d' :: rest) =
          .ok ('\x7d' :: rest) [] := sepGo_nil hms1e
      have hstmts : statementsP (f3 + 1 + 1) ('\x7d' :: rest) =
          .ok ('\x7d' :: rest) ([] : List Statement) := by
        rw [statementsP]
        exact pmap_ok (preceded_ok hms0r (sepList1_of hline hgo))
      rw [procedureP]
      exact delimited_ok (pchar_ok '\x7b' _) (pcut_ok (pmap_ok hstmts))
        (pcut_ok (pchar_ok '\x7d' rest))
    | cons s ss' =>
      have hgss : goodStmt s = true ∧ goodStmtList ss' = true := by
        simpa [goodStmtList] using hgs
      obtain ⟨c, t, hct, hcns⟩ := displayStatement_head hgss.1
      have h1s := one_le_wStmt s
      have h1ss := one_le_wStmtList ss'
      simp only [wStmtList] at hn hf3
      have hin : displayProcedure (.mk (s :: ss')) ++ rest =
          '\x7b' :: ' ' :: (displayStatement s ++
            (displayStatementItems ss' ++ ' ' :: '\x7d' :: rest)) := by
        simp [displayProcedure, displayStatementItems]
      have hrest2 : restOK (displayStatementItems ss' ++ ' ' :: '\x7d' :: rest) := by
        cases ss' <;> exact Or.inr ⟨_, rfl⟩
      have hitem := HS s (by omega) f3 _ (by omega) hgss.1 hrest2
      have hlenb := length_le_displayStatementItems ss'
      have hrec := HL ss' (by omega) f3
        ((displayStatementItems ss' ++ ' ' :: '\x7d' :: rest).length + 1) rest
        (by omega)
        (by
          simp only [List.length_append, List.length_cons]
          omega)
        hgss.2
      have hsl0 : sepList0 space1 (statementP f3)
          (displayStatement s ++
            (displayStatementItems ss' ++ ' ' :: '\x7d' :: rest)) =
          .ok (' ' :: '\x7d' :: rest) (s :: ss') :=
        sepList0_of hitem hrec
      have hsp1 : space0 ([' '] ++ ('\x7d' :: rest)) = .ok ('\x7d' :: rest) [' '] :=
        takeWhile0_exact (by decide) (show isSpaceTab '\x7d' = false by decide)
      have hline : lineP (f3 + 1)
          (displayStatement s ++
            (displayStatementItems ss' ++ ' ' :: '\x7d' :: rest)) =
          .ok ('\x7d' :: rest) (s :: ss') := by
        rw [lineP]
        exact terminated_ok hsl0 (pseq_ok hsp1 hcom)
      have hgo : sepGo multispace1 (lineP (f3 + 1))
          (('\x7d' :: rest).length + 1) ('\x7d' :: rest) =
          .ok ('\x7d' :: rest) [] := sepGo_nil hms1e
      have hnx : nextNot isMultispace (displayStatement s ++
          (displayStatementItems ss' ++ ' ' :: '\x7d' :: rest)) := by
        rw [hct]
        exact hcns
      have hms0 : multispace0 ([' '] ++ (displayStatement s ++
          (displayStatementItems ss' ++ ' ' :: '\x7d' :: rest))) =
          .ok (displayStatement s ++
            (displayStatementItems ss' ++ ' ' :: '\x7d' :: rest)) [' '] :=
        takeWhile0_exact (by decide) hnx
      have hstmts : statementsP (f3 + 1 + 1) (' ' :: (displayStatement s ++
          (displayStatementItems ss' ++ ' ' :: '\x7d' :: rest))) =
          .ok ('\x7d' :: rest) (s :: ss') := by
        rw [statementsP]
        have h0 := pmap_ok (f := List.flatten)
          (preceded_ok hms0 (sepList1_of hline hgo))
        simpa using h0
      rw [procedureP, hin]
      exact delimited_ok (pchar_ok '\x7b' _) (pcut_ok (pmap_ok hstmts))
        (pcut_ok (pchar_ok '\x7d' rest))
  -- SS: one statement
  · intro s hn
    intro f rest hf hg hrest
    cases s with
    | expression e =>
      simp only [wStmt] at hn hf
      obtain ⟨f1, rfl, hf1⟩ : ∃ f1, f = f1 + 1 ∧ wExpr e ≤ f1 := by
        have := one_le_wExpr e
        cases f with
        | zero => omega
        | succ f1 => exact ⟨f1, rfl, by omega⟩
      cases e with
      | literal l =>
        cases l with
        | bool b => exact absurd hg (by simp [goodStmt])
        | number q =>
          obtain ⟨hql, hqn⟩ : intLike q = true ∧ 0 ≤ q.num := by
            simpa [goodStmt] using hg
          have hdisp : displayNumber q = natDigits q.num.natAbs := by
            rw [displayNumber_intLike hql, if_neg (by omega)]
            rfl
          have hw : ∀ c ∈ natDigits q.num.natAbs, c.isDigit = true :=
            (natDigits_spec _).2.1
          have hne : natDigits q.num.natAbs ≠ [] := (natDigits_spec _).1
          have hdef : definitionP f1 (natDigits q.num.natAbs ++ rest) = .err := by
            apply definitionP_err_of_tag
            apply ptag_err_boundary ?_ (by decide) hrest
            exact listPrefix_false_of_nondigit _ _ (by decide) hw
          have hbp := builtinP_err_digits hw hrest
          have hid : identifierP (natDigits q.num.natAbs ++ rest) = .err :=
            identifierP_err_digit hne hw
          have hexpr : expressionP f1 (natDigits q.num.natAbs ++ rest) =
              .ok rest (.literal (.number q)) := by
            have h0 := HE (.literal (.number q)) (by omega) f1 rest hf1
              (by simp [goodExpr, hql]) hrest
            rw [show displayExpression (.literal (.number q)) = displayNumber q
              from rfl, hdisp] at h0
            exact h0
          have hfin := statementP_expr_of hdef hbp hid hexpr
          rw [show displayStatement (.expression (.literal (.number q))) =
            displayNumber q from rfl, hdisp]
          exact hfin
        | string st =>
          have hdef : definitionP f1
              (displayStatement (.expression (.literal (.string st))) ++ rest) =
              .err := by
            apply definitionP_err_of_tag
            exact rfl
          have hbp : builtinP
              (displayStatement (.expression (.literal (.string st))) ++ rest) =
              .err := rfl
          have hid : identifierP
              (displayStatement (.expression (.literal (.string st))) ++ rest) =
              .err := rfl
          have hexpr := HE (.literal (.string st)) (by omega) f1 rest hf1
            (by simpa [goodStmt, goodExpr] using hg) hrest
          exact statementP_expr_of hdef hbp hid hexpr
      | procedure p =>
        obtain ⟨ss⟩ := p
        have hdef : definitionP f1
            (displayStatement (.expression (.procedure (.mk ss))) ++ rest) =
            .err := by
          apply definitionP_err_of_tag
          exact rfl
        have hbp : builtinP
            (displayStatement (.expression (.procedure (.mk ss))) ++ rest) =
            .err := rfl
        have hid : identifierP
            (displayStatement (.expression (.procedure (.mk ss))) ++ rest) =
            .err := rfl
        have hexpr := HE (.procedure (.mk ss)) (by omega) f1 rest hf1
          (by simpa [goodStmt, goodExpr] using hg) hrest
        exact statementP_expr_of hdef hbp hid hexpr
      | list es =>
        have hdef : definitionP f1
            (displayStatement (.expression (.list es)) ++ rest) = .err := by
          apply definitionP_err_of_tag
          exact rfl
        have hbp : builtinP
            (displayStatement (.expression (.list es)) ++ rest) = .err := rfl
        have hid : identifierP
            (displayStatement (.expression (.list es)) ++ rest) = .err := rfl
        have hexpr := HE (.list es) (by omega) f1 rest hf1
          (by simpa [goodStmt, goodExpr] using hg) hrest
        exact statementP_expr_of hdef hbp hid hexpr
    | builtin b =>
      have hb : ¬b = Builtin.ifOp := by simpa [goodStmt] using hg
      simp only [wStmt] at hf
      obtain ⟨f1, rfl⟩ : ∃ f1, f = f1 + 1 := by
        cases f with
        | zero => omega
        | succ f1 => exact ⟨f1, rfl⟩
      have hdef : definitionP f1 ((builtinToStr b).data ++ rest) = .err := by
        apply definitionP_err_of_tag
        apply ptag_err_boundary ?_ (by decide) hrest
        cases b <;> decide
      exact statementP_builtin_of hdef (builtinP_token b hb hrest)
    | value v => exact absurd hg (by simp [goodStmt])
    | definition id p =>
      obtain ⟨ss⟩ := p
      simp only [wStmt, wProc] at hn hf
      obtain ⟨f1, rfl, hf1⟩ : ∃ f1, f = f1 + 1 ∧ wStmtList ss + 4 ≤ f1 := by
        cases f with
        | zero => omega
        | succ f1 => exact ⟨f1, rfl, by omega⟩
      obtain ⟨f2, rfl, hf2⟩ : ∃ f2, f1 = f2 + 1 ∧ wStmtList ss + 3 ≤ f2 := by
        cases f1 with
        | zero => omega
        | succ f2 => exact ⟨f2, rfl, by omega⟩
      have hgood : identShape id.data = true ∧ goodProc (.mk ss) = true := by
        simpa [goodStmt] using hg
      obtain ⟨cid, cids, hidd, hidns⟩ := identShape_head hgood.1
      have hin : displayStatement (.definition id (.mk ss)) ++ rest =
          "def ".data ++ (id.data ++
            (' ' :: (displayProcedure (.mk ss) ++ rest))) := by
        simp [displayStatement]
      have hnx : nextNot isMultispace (id.data ++
          (' ' :: (displayProcedure (.mk ss) ++ rest))) := by
        rw [hidd]
        exact hidns
      have hms1 : multispace1 ([' '] ++ (id.data ++
          (' ' :: (displayProcedure (.mk ss) ++ rest)))) =
          .ok (id.data ++ (' ' :: (displayProcedure (.mk ss) ++ rest))) [' '] :=
        takeWhile1_exact (by simp) (by decide) hnx
      have hident : identifierP (id.data ++
          (' ' :: (displayProcedure (.mk ss) ++ rest))) =
          .ok (' ' :: (displayProcedure (.mk ss) ++ rest)) id.data :=
        identifierP_ok hgood.1 (Or.inr ⟨_, rfl⟩)
      have hnx0 : nextNot isMultispace (displayProcedure (.mk ss) ++ rest) := by
        exact (show isMultispace '\x7b' = false by decide)
      have hms0 : multispace0 ([' '] ++ (displayProcedure (.mk ss) ++ rest)) =
          .ok (displayProcedure (.mk ss) ++ rest) [' '] :=
        takeWhile0_exact (by decide) hnx0
      have hproc := HP (.mk ss) (by simp only [wProc]; omega) f2 rest
        (by simp only [wProc]; omega) hgood.2
      have hdefp : definitionP (f2 + 1)
          (displayStatement (.definition id (.mk ss)) ++ rest) =
          .ok rest (.definition (String.mk id.data) (.mk ss)) := by
        rw [definitionP, hin]
        exact pmap_ok (preceded_ok (pseq_ok (ptag_exact _ _) hms1)
          (pcut_ok (pseq_ok hident (preceded_ok hms0 hproc))))
      exact statementP_def_of hdefp
    | word w =>
      have hgw : goodWord w = true := by simpa [goodStmt] using hg
      rw [goodWord, Bool.and_eq_true, Bool.and_eq_true] at hgw
      obtain ⟨⟨hshape, hnb⟩, hndef⟩ := hgw
      simp only [wStmt] at hf
      obtain ⟨f1, rfl⟩ : ∃ f1, f = f1 + 1 := by
        cases f with
        | zero => omega
        | succ f1 => exact ⟨f1, rfl⟩
      have hdef : definitionP f1 (w.data ++ rest) = .err := by
        apply definitionP_err_of_tag
        apply ptag_err_boundary ?_ (by decide) hrest
        simpa using hndef
      have hbp := builtinP_err_word hnb hrest
      have hid := identifierP_ok hshape hrest
      exact statementP_word_of hdef hbp hid
  -- SL: the (space1 statement)* loop of a procedure body
  · intro ss hn
    intro f gas rest hf hgas hg
    cases ss with
    | nil =>
      obtain ⟨g, rfl⟩ : ∃ g, gas = g + 1 := by
        cases gas with
        | zero => omega
        | succ g => exact ⟨g, rfl⟩
      have hsep : space1 ([' '] ++ ('\x7d' :: rest)) = .ok ('\x7d' :: rest) [' '] :=
        takeWhile1_exact (by simp) (by decide)
          (show isSpaceTab '\x7d' = false by decide)
      exact sepGo_stop hsep (by simp [displayStatementItems]) (statementP_err_rbrace rest f)
    | cons s ss' =>
      obtain ⟨g, rfl⟩ : ∃ g, gas = g + 1 := by
        cases gas with
        | zero => omega
        | succ g => exact ⟨g, rfl⟩
      have hgs : goodStmt s = true ∧ goodStmtList ss' = true := by
        simpa [goodStmtList] using hg
      obtain ⟨c, t, hct, hcns⟩ := displayStatement_head hgs.1
      have h1s := one_le_wStmt s
      have h1ss := one_le_wStmtList ss'
      simp only [wStmtList] at hn hf
      have hgas' : ss'.length < g := by
        simp at hgas
        omega
      have hin : displayStatementItems (s :: ss') ++ ' ' :: '\x7d' :: rest =
          ' ' :: (displayStatement s ++
            (displayStatementItems ss' ++ ' ' :: '\x7d' :: rest)) := by
        simp [displayStatementItems]
      rw [hin]
      have hnx : nextNot isSpaceTab (displayStatement s ++
          (displayStatementItems ss' ++ ' ' :: '\x7d' :: rest)) := by
        rw [hct]
        exact isSpaceTab_false_of_ms hcns
      have hsep : space1 ([' '] ++ (displayStatement s ++
          (displayStatementItems ss' ++ ' ' :: '\x7d' :: rest))) =
          .ok (displayStatement s ++
            (displayStatementItems ss' ++ ' ' :: '\x7d' :: rest)) [' '] :=
        takeWhile1_exact (by simp) (by decide) hnx
      have hrest2 : restOK (displayStatementItems ss' ++ ' ' :: '\x7d' :: rest) := by
        cases ss' <;> exact Or.inr ⟨_, rfl⟩
      have hitem := HS s (by omega) f _ (by omega) hgs.1 hrest2
      have hrec := HL ss' (by omega) f g rest (by omega) hgas' hgs.2
      exact sepGo_step hsep (by simp) hitem hrec

/-- Claim C1 counterexamples: parsing the rendered form of a `Value` is NOT
always a left inverse of display.  (1) The empty string renders as `""`,
which the expression rule rejects (`is_not` inside the string rule demands
at least one character).  (2) The procedure `{ ? }` (whose body is the `if`
builtin, displayed as `?`) renders to a form whose reparse is a hard
failure (the `cut` on the closing brace), since `?` is not a statement.
(3) The procedure `{ true }` (whose body is the boolean-literal expression
`true`) reparses successfully but to a different value: the body comes back
as the word `true`, not the boolean literal. -/
theorem c1_display_not_left_inverse :
    expressionP 20 (displayValue (.string "")) = .err ∧
    expressionP 20 (displayValue (.procedure (.mk [.builtin .ifOp]))) = .fail ∧
    expressionP 20
        (displayValue (.procedure (.mk [.expression (.literal (.bool true))]))) =
      .ok [] (.procedure (.mk [.word "true"])) ∧
    valueOfExpression (.procedure (.mk [.word "true"])) ≠
      Value.procedure (.mk [.expression (.literal (.bool true))]) := by
  refine ⟨rfl, rfl, rfl, ?_⟩
  simp [valueOfExpression]

/-- Claim C1 (amended): on the *good* fragment — numbers that are exact
small integers, nonempty plain-ASCII strings, procedure bodies made of
reparsable statements (no boolean-literal or negative-number expressions,
no `if` builtin, no runtime `Value` statements), and lists of good
values — parsing the rendered form of a value as an expression succeeds,
consumes the whole rendering, and evaluates back to an equal value. -/
theorem c1_roundtrip_amended (v : Value) (fuel : Nat)
    (hv : goodValue v = true) (hf : wValue v ≤ fuel) :
    expressionP fuel (displayValue v) = .ok [] (exprOfValue v) ∧
    valueOfExpression (exprOfValue v) = v := by
  refine ⟨?_, valueOf_exprOfValue v⟩
  have h1 := (roundtrip_bundle fuel).1 (exprOfValue v) hf fuel []
    hf (goodExpr_exprOfValue v hv) (Or.inl rfl)
  rw [display_exprOfValue, List.append_nil] at h1
  exact h1

/-- Witness for C1's amended theorem at a concrete good value: the list
`[2 "hi" { + } true]`. -/
theorem c1_roundtrip_amended_witness :
    goodValue (.list [.number (ratI 2), .string "hi",
      .procedure (.mk [.builtin .add]), .bool true]) = true ∧
    wValue (.list [.number (ratI 2), .string "hi",
      .procedure (.mk [.builtin .add]), .bool true]) ≤ 20 ∧
    (expressionP 20 (displayValue (.list [.number (ratI 2), .string "hi",
        .procedure (.mk [.builtin .add]), .bool true])) =
      .ok [] (exprOfValue (.list [.number (ratI 2), .string "hi",
        .procedure (.mk [.builtin .add]), .bool true])) ∧
    valueOfExpression (exprOfValue (.list [.number (ratI 2), .string "hi",
        .procedure (.mk [.builtin .add]), .bool true])) =
      .list [.number (ratI 2), .string "hi",
        .procedure (.mk [.builtin .add]), .bool true]) :=
  ⟨by decide, by decide,
    c1_roundtrip_amended
      (.list [.number (ratI 2), .string "hi",
        .procedure (.mk [.builtin .add]), .bool true]) 20
      (by decide) (by decide)⟩

end Stack
